import Mathlib

set_option maxHeartbeats 1000000
set_option maxRecDepth 8192

namespace Nuon

/-!
Shallow embedding of parts of the Nuon onion-routing relay core:

* the circuit-build-time statistics module `src/core/or/circuitstats.c`
  (adaptive circuit build timeout learning, its rolling sample window,
  its persisted histogram state, and the Pareto timeout computation);
* the arena allocator `memarea.c` (chunk reuse, alignment, ownership);
* the cell codec (modelled from the specification, since its source file
  is not part of this tree).

Machine integers (`build_time_t`, `uint32_t`, `size_t`) are modelled as `ℕ`
(`Int` where a C value can be negative); the places where the C code checks
its own ranges are embedded as the corresponding `ℕ` conditions.  C `double`
values are modelled as `ℝ`, with the one IEEE-754 behaviour the code relies
on (a positive value divided by `+0.0` giving `+inf`, and `pow x 0 = 1` for
the resulting infinite exponent) made explicit through an `Option ℝ` alpha
(`none` standing for that infinity).
-/

/-- Compile-time `CBT_*` constants of the circuit-build-time module.  The
header `circuitstats.h` defining these macros is not part of this tree, so
the constants are parameters of the model; each theorem assumes only the
bounds it needs (for example `0 < ncircuits`). -/
structure CbtConsts where
  /-- CBT_NCIRCUITS_TO_OBSERVE: size of the circular build-time window. -/
  ncircuits : ℕ
  /-- CBT_BIN_WIDTH: histogram bin width in milliseconds. -/
  binWidth : ℕ
  /-- CBT_BUILD_TIME_MAX: largest storable build time. -/
  buildTimeMax : ℕ
  /-- CBT_BUILD_ABANDONED: sentinel stored for an abandoned circuit. -/
  buildAbandoned : ℕ
  deriving DecidableEq

/-- Environment of the module: the result of `circuit_build_times_disabled`
(which reads the torrc options, the consensus and dirauth/single-onion state,
all external to this file) together with the bounds-checked consensus
parameters as returned by the `networkstatus_get_param` calls in the getter
functions of `circuitstats.c`, and the `CircuitBuildTimeout` option. -/
structure CbtEnv where
  /-- Result of `circuit_build_times_disabled(get_options())`. -/
  disabled : Bool
  /-- Consensus `cbtmincircs` after its clamp. -/
  cbtmincircs : ℕ
  /-- Consensus `cbtquantile` after its clamp (a percent). -/
  cbtquantile : ℕ
  /-- Consensus `cbtclosequantile` after its `networkstatus_get_param` clamp
  (the further raise to `cbtquantile` is code in `circuitstats.c` and is
  embedded in `circuit_build_times_close_quantile`). -/
  cbtclosequantile : ℕ
  /-- Consensus `cbtmintimeout` after its clamp (ms). -/
  cbtmintimeout : ℕ
  /-- Consensus `cbtinitialtimeout` after its `networkstatus_get_param`
  clamp (ms); the raise to `cbtmintimeout` is embedded below. -/
  cbtinitialtimeout : ℕ
  /-- Consensus `cbtnummodes` after its clamp. -/
  cbtnummodes : ℕ
  /-- Consensus `cbtmaxtimeouts` after its clamp. -/
  cbtmaxtimeouts : ℕ
  /-- Torrc `CircuitBuildTimeout` in seconds; `0` means unset. -/
  configCircuitBuildTimeout : ℕ
  /-- Consensus `cbtrecentcount` after its clamp. -/
  cbtrecentcount : ℕ
  deriving DecidableEq

/-- Embeds `circuit_build_times_min_timeout`: the bounds-checked
`cbtmintimeout` consensus parameter. -/
def circuit_build_times_min_timeout (E : CbtEnv) : ℕ :=
  E.cbtmintimeout

/-- Embeds `circuit_build_times_initial_timeout`: the bounds-checked
`cbtinitialtimeout`, raised to the minimum timeout when below it. -/
def circuit_build_times_initial_timeout (E : CbtEnv) : ℕ :=
  if E.cbtinitialtimeout < circuit_build_times_min_timeout E then
    circuit_build_times_min_timeout E
  else E.cbtinitialtimeout

/-- Embeds `circuit_build_times_quantile_cutoff`: `cbtquantile`/100 as a
real number. -/
noncomputable def circuit_build_times_quantile_cutoff (E : CbtEnv) : ℝ :=
  (E.cbtquantile : ℝ) / 100

/-- Embeds `circuit_build_times_close_quantile`: `cbtclosequantile`, raised
to `lround(100*quantile_cutoff()) = cbtquantile` when below it, over 100. -/
noncomputable def circuit_build_times_close_quantile (E : CbtEnv) : ℝ :=
  ((if E.cbtclosequantile < E.cbtquantile then E.cbtquantile
    else E.cbtclosequantile : ℕ) : ℝ) / 100

/-- Embeds `circuit_build_times_get_initial_timeout` (milliseconds): the
torrc `CircuitBuildTimeout` (converted to ms and raised to the minimum when
learning is enabled), or the consensus initial timeout when unset. -/
def circuit_build_times_get_initial_timeout (E : CbtEnv) : ℕ :=
  if E.configCircuitBuildTimeout ≠ 0 then
    if ¬E.disabled ∧
        E.configCircuitBuildTimeout * 1000 < circuit_build_times_min_timeout E then
      circuit_build_times_min_timeout E
    else E.configCircuitBuildTimeout * 1000
  else circuit_build_times_initial_timeout E

/-- State of `circuit_build_times_t`.  The circular array
`circuit_build_times[CBT_NCIRCUITS_TO_OBSERVE]` is a list whose length the
theorems keep equal to `ncircuits`; `0` marks an uninitialized slot as in
the C code.  `alpha = none` models the IEEE `+inf` that `n/a` produces when
the accumulated `a` is exactly zero. -/
structure CBT where
  times : List ℕ
  idx : ℕ
  total : ℕ
  Xm : ℕ
  alpha : Option ℝ
  timeoutMs : ℝ
  closeMs : ℝ
  haveComputed : Bool
  numSucceeded : ℕ
  numClosed : ℕ
  numTimeouts : ℕ
  liveTimeoutsAfterFirsthop : List ℕ
  liveNumRecent : ℕ
  liveAfterFirsthopIdx : ℕ
  liveNonliveTimeouts : ℕ

/-- Embeds `circuit_build_times_reset`: zero the history and the circuit
counts, leaving the estimated parameters, timeout and liveness intact. -/
def circuit_build_times_reset (K : CbtConsts) (cbt : CBT) : CBT :=
  { cbt with
    times := List.replicate K.ncircuits 0
    total := 0
    idx := 0
    haveComputed := false
    numSucceeded := 0
    numClosed := 0
    numTimeouts := 0 }

/-- Embeds `circuit_build_times_add_time`.  `build_time_t` is unsigned, so
the C guard `btime <= 0` is `btime = 0` here.  Returns the C return value
together with the new state; the `or_state_mark_dirty` side effect (a disk
write) is outside the model. -/
def circuit_build_times_add_time (K : CbtConsts) (cbt : CBT) (btime : ℕ) :
    Int × CBT :=
  if btime = 0 ∨ K.buildTimeMax < btime then (-1, cbt)
  else
    (0, { cbt with
          times := cbt.times.set cbt.idx btime
          idx := (cbt.idx + 1) % K.ncircuits
          total := if cbt.total < K.ncircuits then cbt.total + 1 else cbt.total })

/-- Feed a list of samples to `circuit_build_times_add_time` in order,
keeping only the state. -/
def cbtAddAll (K : CbtConsts) (cbt : CBT) (l : List ℕ) : CBT :=
  l.foldl (fun c t => (circuit_build_times_add_time K c t).2) cbt

theorem cbtAddAll_append (K : CbtConsts) (cbt : CBT) (l : List ℕ) (t : ℕ) :
    cbtAddAll K cbt (l ++ [t]) =
      (circuit_build_times_add_time K (cbtAddAll K cbt l) t).2 := by
  simp [cbtAddAll]

/-- C9: out-of-range build times are rejected with `-1` and the whole state
(the `circuit_build_times` array, `build_times_idx` and `total_build_times`)
is left unchanged; in-range build times return `0` and are recorded at the
circular index. -/
theorem circuit_build_times_add_time_range (K : CbtConsts) (cbt : CBT) (btime : ℕ) :
    ((btime = 0 ∨ K.buildTimeMax < btime) →
      circuit_build_times_add_time K cbt btime = (-1, cbt)) ∧
    (btime ≠ 0 → btime ≤ K.buildTimeMax →
      circuit_build_times_add_time K cbt btime =
        (0, { cbt with
              times := cbt.times.set cbt.idx btime
              idx := (cbt.idx + 1) % K.ncircuits
              total := if cbt.total < K.ncircuits then cbt.total + 1
                       else cbt.total })) := by
  constructor
  · intro h
    simp [circuit_build_times_add_time, h]
  · intro h1 h2
    have : ¬(btime = 0 ∨ K.buildTimeMax < btime) := by
      push_neg
      exact ⟨h1, h2⟩
    simp [circuit_build_times_add_time, this]

theorem modIdx_ne {len N i : ℕ} (h1 : i < len) (h2 : len + 1 ≤ i + N) :
    i % N ≠ len % N := by
  intro he
  have he2 : i ≡ len [MOD N] := he
  have hd : N ∣ len - i := (Nat.modEq_iff_dvd' (le_of_lt h1)).mp he2
  have h3 : 0 < len - i := Nat.sub_pos_of_lt h1
  have := Nat.le_of_dvd h3 hd
  omega

/-- C4: starting from a reset state, any sequence of accepted samples leaves
the window with exactly `CBT_NCIRCUITS_TO_OBSERVE` slots, `total_build_times
= min(samples, CBT_NCIRCUITS_TO_OBSERVE)` (so it never exceeds the window
size), `build_times_idx = samples % CBT_NCIRCUITS_TO_OBSERVE` (so it stays in
`[0, CBT_NCIRCUITS_TO_OBSERVE)`), and slot `i % CBT_NCIRCUITS_TO_OBSERVE`
holds the `i`-th sample for each of the last `CBT_NCIRCUITS_TO_OBSERVE`
samples: a new sample lands on the slot of the sample exactly
`CBT_NCIRCUITS_TO_OBSERVE` positions before it, i.e. the oldest one. -/
theorem cbt_rolling_window (K : CbtConsts) (hN : 0 < K.ncircuits) (cbt0 : CBT)
    (l : List ℕ) (hl : ∀ t ∈ l, t ≠ 0 ∧ t ≤ K.buildTimeMax) :
    (cbtAddAll K (circuit_build_times_reset K cbt0) l).times.length = K.ncircuits ∧
    (cbtAddAll K (circuit_build_times_reset K cbt0) l).total =
      min l.length K.ncircuits ∧
    (cbtAddAll K (circuit_build_times_reset K cbt0) l).total ≤ K.ncircuits ∧
    (cbtAddAll K (circuit_build_times_reset K cbt0) l).idx =
      l.length % K.ncircuits ∧
    (cbtAddAll K (circuit_build_times_reset K cbt0) l).idx < K.ncircuits ∧
    (∀ i, i < l.length → l.length ≤ i + K.ncircuits →
      (cbtAddAll K (circuit_build_times_reset K cbt0) l).times.getD
          (i % K.ncircuits) 0 = l.getD i 0) := by
  induction l using List.reverseRecOn with
  | nil =>
    refine ⟨?_, ?_, ?_, ?_, ?_, ?_⟩
    · simp [cbtAddAll, circuit_build_times_reset]
    · simp [cbtAddAll, circuit_build_times_reset]
    · simp [cbtAddAll, circuit_build_times_reset]
    · simp [cbtAddAll, circuit_build_times_reset]
    · simpa [cbtAddAll, circuit_build_times_reset] using hN
    · intro i hi _
      simp at hi
  | append_singleton l t ih =>
    have hl' : ∀ s ∈ l, s ≠ 0 ∧ s ≤ K.buildTimeMax := by
      intro s hs
      exact hl s (by simp [hs])
    have ht : t ≠ 0 ∧ t ≤ K.buildTimeMax := hl t (by simp)
    obtain ⟨Hlen, Htot, _, Hidx, _, Hpos⟩ := ih hl'
    have hguard : ¬(t = 0 ∨ K.buildTimeMax < t) := by
      push_neg
      exact ⟨ht.1, ht.2⟩
    set c := cbtAddAll K (circuit_build_times_reset K cbt0) l with hc
    have hstep : cbtAddAll K (circuit_build_times_reset K cbt0) (l ++ [t]) =
        { c with
          times := c.times.set c.idx t
          idx := (c.idx + 1) % K.ncircuits
          total := if c.total < K.ncircuits then c.total + 1 else c.total } := by
      rw [cbtAddAll_append, ← hc]
      simp [circuit_build_times_add_time, hguard]
    rw [hstep]
    refine ⟨by simp [Hlen], ?_, ?_, ?_, ?_, ?_⟩
    · simp only [Htot, List.length_append, List.length_cons, List.length_nil]
      split <;> omega
    · simp only [Htot]
      split <;> omega
    · simp only [List.length_append, List.length_cons, List.length_nil, Hidx,
        Nat.mod_add_mod]
    · exact Nat.mod_lt _ hN
    · intro i hi1 hi2
      simp only [List.length_append, List.length_cons, List.length_nil] at hi1 hi2
      rcases Nat.lt_or_ge i l.length with h | h
      · have hne : i % K.ncircuits ≠ l.length % K.ncircuits :=
          modIdx_ne h (by omega)
        have hgetset : (c.times.set c.idx t).getD (i % K.ncircuits) 0 =
            c.times.getD (i % K.ncircuits) 0 := by
          rw [Hidx]
          simp [List.getD_eq_getElem?_getD, List.getElem?_set_ne (Ne.symm hne)]
        rw [hgetset, Hpos i h (by omega)]
        simp [List.getD_eq_getElem?_getD, List.getElem?_append, h]
      · have hieq : i = l.length := by omega
        have hlt : l.length % K.ncircuits < c.times.length := by
          rw [Hlen]
          exact Nat.mod_lt _ hN
        subst hieq
        rw [Hidx]
        simp [List.getD_eq_getElem?_getD, List.getElem?_set_self hlt]

/-- Embeds `circuit_build_times_enough_to_compute`: have we recorded at
least `cbtmincircs` build times? -/
def circuit_build_times_enough_to_compute (E : CbtEnv) (cbt : CBT) : Bool :=
  E.cbtmincircs ≤ cbt.total

/-- Embeds `circuit_build_times_init`: a zeroed structure (so `alpha` is the
double `0.0`), liveness tracking sized by `cbtrecentcount` when learning is
enabled, and `close_ms = timeout_ms =` the initial timeout. -/
noncomputable def circuit_build_times_init (K : CbtConsts) (E : CbtEnv) : CBT :=
  { times := List.replicate K.ncircuits 0
    idx := 0
    total := 0
    Xm := 0
    alpha := some 0
    timeoutMs := (circuit_build_times_get_initial_timeout E : ℝ)
    closeMs := (circuit_build_times_get_initial_timeout E : ℝ)
    haveComputed := false
    numSucceeded := 0
    numClosed := 0
    numTimeouts := 0
    liveTimeoutsAfterFirsthop :=
      if E.disabled then [] else List.replicate E.cbtrecentcount 0
    liveNumRecent := if E.disabled then 0 else E.cbtrecentcount
    liveAfterFirsthopIdx := 0
    liveNonliveTimeouts := 0 }

/-- Embeds `circuit_build_times_max`: the largest recorded build time that
is not the abandoned sentinel (0 when there is none). -/
def circuit_build_times_max (K : CbtConsts) (cbt : CBT) : ℕ :=
  cbt.times.foldl
    (fun m x => if m < x ∧ x ≠ K.buildAbandoned then x else m) 0

/-- Embeds the `CBT_BIN_TO_MS` macro: the millisecond label of a bin. -/
def cbtBinToMs (K : CbtConsts) (bin : ℕ) : ℕ :=
  bin * K.binWidth + K.binWidth / 2

/-- Embeds `circuit_build_times_create_histogram`: one bucket per
`binWidth` slice up to the maximum recorded time, counting the recorded
times that are neither 0 (uninitialized) nor the abandoned sentinel. -/
def circuit_build_times_create_histogram (K : CbtConsts) (cbt : CBT) : List ℕ :=
  cbt.times.foldl
    (fun h x =>
      if x = 0 ∨ x = K.buildAbandoned then h
      else h.set (x / K.binWidth) (h.getD (x / K.binWidth) 0 + 1))
    (List.replicate (1 + circuit_build_times_max K cbt / K.binWidth) 0)

/-- Helper of `circuit_build_times_get_xm`: the index of the (first)
largest bucket, as computed by the inner loop of the C code (`best`
starts at bin 0 and moves only on a strictly larger count). -/
def cbtArgmaxBin (hist : List ℕ) : ℕ :=
  (List.range hist.length).foldl
    (fun best i => if hist.getD best 0 < hist.getD i 0 then i else best) 0

/-- Helper of `circuit_build_times_get_xm`: run `num_modes` rounds of
"take the largest bucket, add its mass to the running weighted average,
then zero it", returning `(xm_counts, xm_total, remaining histogram)`. -/
def cbtXmModes (K : CbtConsts) : ℕ → ℕ × ℕ × List ℕ → ℕ × ℕ × List ℕ
  | 0, acc => acc
  | n + 1, (counts, total, hist) =>
    let b := cbtArgmaxBin hist
    cbtXmModes K n
      (counts + hist.getD b 0,
       total + cbtBinToMs K b * hist.getD b 0,
       hist.set b 0)

/-- Embeds `circuit_build_times_get_xm`: the weighted average of the
`cbtnummodes` most frequent build-time bins (0 if every recorded time was
abandoned). -/
def circuit_build_times_get_xm (K : CbtConsts) (E : CbtEnv) (cbt : CBT) : ℕ :=
  let r := cbtXmModes K E.cbtnummodes
    (0, 0, circuit_build_times_create_histogram K cbt)
  if r.1 = 0 then 0 else r.2.1 / r.1

/-- Helper of `circuit_build_times_update_alpha`: the fold over the
recorded times computing `(a, n, abandoned_count)`, with the C branch
order (`x < Xm` tested before the abandoned sentinel). -/
noncomputable def cbtAlphaSum (K : CbtConsts) (Xm : ℕ) (l : List ℕ) :
    ℝ × ℕ × ℕ :=
  l.foldl
    (fun acc x =>
      if x = 0 then acc
      else if x < Xm then (acc.1 + Real.log Xm, acc.2.1 + 1, acc.2.2)
      else if x = K.buildAbandoned then (acc.1, acc.2.1, acc.2.2 + 1)
      else (acc.1 + Real.log x, acc.2.1 + 1, acc.2.2))
    (0, 0, 0)

/-- Embeds `circuit_build_times_update_alpha`: estimate `Xm` (storing it
even on failure, as the C code does) and, unless `Xm` came back 0, the
Pareto maximum-likelihood `alpha = n / a`.  The C quotient is an IEEE
double: when `a` is exactly `0.0` it yields `+inf` (here `none`; `n` is
positive whenever this branch runs, since `Xm ≠ 0` forces a non-abandoned
sample, so the `0.0/0.0` NaN case cannot arise). -/
noncomputable def circuit_build_times_update_alpha (K : CbtConsts) (E : CbtEnv)
    (cbt : CBT) : Bool × CBT :=
  let Xm := circuit_build_times_get_xm K E cbt
  if Xm = 0 then (false, { cbt with Xm := Xm })
  else
    let s := cbtAlphaSum K Xm cbt.times
    let a := s.1 - (s.2.1 : ℝ) * Real.log Xm
    (true, { cbt with
             Xm := Xm
             alpha := if a = 0 then none else some ((s.2.1 : ℝ) / a) })

/-- Value of `INT32_MAX` used by the timeout computation. -/
def INT32_MAX : ℕ := 2147483647

/-- Embeds `circuit_build_times_calculate_timeout` (the Pareto quantile
function), taking the `Xm`/`alpha` fields it reads from the structure.
`ret` starts at `INT32_MAX`; a positive `alpha` yields
`Xm / (1-quantile)^(1/alpha)`, and the final clamp keeps the result at most
`INT32_MAX`.  `alpha = none` is the IEEE `+inf` case: `1/alpha` is `0.0`,
`pow` gives `1.0`, so `ret = Xm`. -/
noncomputable def circuit_build_times_calculate_timeout (Xm : ℕ)
    (alpha : Option ℝ) (quantile : ℝ) : ℝ :=
  match alpha with
  | none => min (Xm : ℝ) (INT32_MAX : ℝ)
  | some al =>
    if 0 < al then
      let p := (1 - quantile) ^ (1 / al)
      if 0 < p then min ((Xm : ℝ) / p) (INT32_MAX : ℝ) else (INT32_MAX : ℝ)
    else (INT32_MAX : ℝ)

/-- Embeds `circuit_build_times_set_timeout_worker`: nothing happens until
enough build times are recorded and `alpha` can be estimated; then
`timeout_ms` and `close_ms` are the cutoff and close quantiles of the
fitted Pareto curve, capped by the largest observed build time
(respectively twice it), and `close_ms` is raised to at least the initial
timeout. -/
noncomputable def circuit_build_times_set_timeout_worker (K : CbtConsts)
    (E : CbtEnv) (cbt : CBT) : Bool × CBT :=
  if ¬circuit_build_times_enough_to_compute E cbt then (false, cbt)
  else
    let r := circuit_build_times_update_alpha K E cbt
    if ¬r.1 then (false, r.2)
    else
      let cbt1 := r.2
      let timeout1 := circuit_build_times_calculate_timeout cbt1.Xm cbt1.alpha
        (circuit_build_times_quantile_cutoff E)
      let close1 := circuit_build_times_calculate_timeout cbt1.Xm cbt1.alpha
        (circuit_build_times_close_quantile E)
      let maxTime := circuit_build_times_max K cbt1
      let timeout2 := if (maxTime : ℝ) < timeout1 then (maxTime : ℝ) else timeout1
      let close2 :=
        if maxTime < INT32_MAX / 2 ∧ 2 * (maxTime : ℝ) < close1
        then 2 * (maxTime : ℝ) else close1
      let close3 := max close2 ((circuit_build_times_initial_timeout E : ℕ) : ℝ)
      (true, { cbt1 with
               timeoutMs := timeout2
               closeMs := close3
               haveComputed := true })

/-- Embeds `circuit_build_times_set_timeout`: run the worker (keeping its
state changes even when it reports failure, as the C code does), then raise
a too-low `timeout_ms` to the minimum timeout, resetting `close_ms` to the
initial timeout if that left it below `timeout_ms`. -/
noncomputable def circuit_build_times_set_timeout (K : CbtConsts) (E : CbtEnv)
    (cbt : CBT) : CBT :=
  if E.disabled then cbt
  else
    let r := circuit_build_times_set_timeout_worker K E cbt
    if ¬r.1 then r.2
    else
      let cbt2 := r.2
      if cbt2.timeoutMs < (circuit_build_times_min_timeout E : ℝ) then
        let cbt3 := { cbt2 with
                      timeoutMs := (circuit_build_times_min_timeout E : ℝ) }
        if cbt3.closeMs < cbt3.timeoutMs then
          { cbt3 with closeMs := (circuit_build_times_initial_timeout E : ℝ) }
        else cbt3
      else cbt2

/-- The slice of `or_state_t` that the build-time module persists: the
total sample count, the abandoned-circuit count, and the
`CircuitBuildTimeBin` lines.  Each line's `"%d %d"` value is modelled as
the printed pair (milliseconds bin label, count); `tor_asprintf` and
`smartlist_split_string` are inverse string plumbing outside the model. -/
structure OrState where
  TotalBuildTimes : ℕ
  CircuitBuildAbandonedCount : ℕ
  BuildtimeHistogram : List (ℕ × ℕ)
  deriving DecidableEq

/-- Embeds `circuit_build_times_update_state`: store the total count, the
number of abandoned entries, and one `CircuitBuildTimeBin` line per
non-empty histogram bucket (in bucket order), skipping the blanks. -/
def circuit_build_times_update_state (K : CbtConsts) (cbt : CBT) : OrState :=
  let hist := circuit_build_times_create_histogram K cbt
  { TotalBuildTimes := cbt.total
    CircuitBuildAbandonedCount :=
      (cbt.times.filter (fun x => x == K.buildAbandoned)).length
    BuildtimeHistogram :=
      (List.range hist.length).filterMap
        (fun i => if hist.getD i 0 = 0 then none
                  else some (cbtBinToMs K i, hist.getD i 0)) }

/-- Line-parsing loop of `circuit_build_times_parse_state`: for each
`CircuitBuildTimeBin` line, `tor_parse_ulong` accepts the bin label only up
to `CBT_BUILD_TIME_MAX` and the count up to `UINT32_MAX` (failure sets
`err` and leaves the loop); a line that would push the sample count past
`TotalBuildTimes` stops the loop without `err`; otherwise `count` copies of
the label are appended.  Returns (loaded count, loaded times, err). -/
def cbtParseLines (K : CbtConsts) (total abandoned : ℕ) :
    List (ℕ × ℕ) → ℕ → List ℕ → ℕ × List ℕ × Bool
  | [], cnt, acc => (cnt, acc, false)
  | (ms, count) :: rest, cnt, acc =>
    if K.buildTimeMax < ms then (cnt, acc, true)
    else if 4294967295 < count then (cnt, acc, true)
    else if total < cnt + count + abandoned then (cnt, acc, false)
    else cbtParseLines K total abandoned rest (cnt + count)
      (acc ++ List.replicate count ms)

/-- The in-place exchange `tmp = raw[k]; raw[k] = raw[n]; raw[n] = tmp` of
the shuffle loop. -/
def cbtSwap (l : List ℕ) (i j : ℕ) : List ℕ :=
  (l.set i (l.getD j 0)).set j (l.getD i 0)

/-- The Fisher-Yates loop `while (n-- > 1) { k = crypto_rand_int(n+1);
swap(k, n); }`, with `crypto_rand_int` (an external uniform sampler)
modelled by the oracle `r`, reduced into range exactly as the C result is:
`r m % (m+1)` plays `crypto_rand_int(m+1)`. -/
def cbtFisherYates (r : ℕ → ℕ) : ℕ → List ℕ → List ℕ
  | 0, l => l
  | m + 1, l => cbtFisherYates r m (cbtSwap l (r (m + 1) % (m + 2)) (m + 1))

/-- Embeds `circuit_build_times_shuffle_and_store_array`: clamp the count
to `INT_MAX-1`, shuffle, and feed the first `min(num_times,
CBT_NCIRCUITS_TO_OBSERVE)` shuffled values to
`circuit_build_times_add_time`. -/
def circuit_build_times_shuffle_and_store_array (K : CbtConsts) (r : ℕ → ℕ)
    (cbt : CBT) (rawTimes : List ℕ) : CBT :=
  let n := min rawTimes.length 2147483646
  let shuffled := cbtFisherYates r (n - 1) rawTimes
  cbtAddAll K cbt (shuffled.take (min rawTimes.length K.ncircuits))

/-- The index-verification loop of `circuit_build_times_parse_state`:
count the slots before the first zero. -/
def cbtPrefixNonzero : List ℕ → ℕ
  | [] => 0
  | x :: rest => if x = 0 then 0 else 1 + cbtPrefixNonzero rest

/-- Embeds `circuit_build_times_parse_state`: initialize a fresh structure,
load the histogram lines, append the abandoned sentinels, bail out
(resetting) on a count mismatch, then shuffle-and-store, verify that the
stored values form an unbroken prefix of the window, and recompute the
timeout.  Returns the C return value (0 or -1) with the new state. -/
noncomputable def circuit_build_times_parse_state (K : CbtConsts) (E : CbtEnv)
    (r : ℕ → ℕ) (st : OrState) : Int × CBT :=
  let cbt0 := circuit_build_times_init K E
  if E.disabled then (0, cbt0)
  else
    let pr := cbtParseLines K st.TotalBuildTimes st.CircuitBuildAbandonedCount
      st.BuildtimeHistogram 0 []
    let loaded := pr.2.1 ++
      List.replicate st.CircuitBuildAbandonedCount K.buildAbandoned
    let loadedCnt := pr.1 + st.CircuitBuildAbandonedCount
    if loadedCnt ≠ st.TotalBuildTimes then
      (-1, circuit_build_times_reset K cbt0)
    else
      let cbt1 := circuit_build_times_shuffle_and_store_array K r cbt0 loaded
      let totValues := cbtPrefixNonzero cbt1.times
      if cbt1.total ≠ totValues ∨ K.ncircuits < cbt1.total then
        (-1, circuit_build_times_reset K cbt1)
      else
        (if pr.2.2 then -1 else 0, circuit_build_times_set_timeout K E cbt1)

/-- Modelled from the spec: the `CIRC_EVENT_FAILED` status code of the
control-event interface (`control_events.h` is not in this tree); only
(in)equality on it is used. -/
def CIRC_EVENT_FAILED : ℕ := 1

/-- Modelled from the spec: `END_CIRC_REASON_TIMEOUT`, the `TIMEOUT` member
of the closed end-reason taxonomy of section 4.5 of the specification
(`or.h` is not in this tree); only (in)equality on it is used. -/
def END_CIRC_REASON_TIMEOUT : ℕ := 10

/-- Modelled from the spec: the `CIRCUIT_PURPOSE_C_MEASURE_TIMEOUT` purpose
code marking a circuit kept only to measure its build time (`circuitlist.h`
is not in this tree); only (in)equality on it is used. -/
def CIRCUIT_PURPOSE_C_MEASURE_TIMEOUT : ℕ := 64

/-- Modelled from the spec: `DEFAULT_ROUTE_LEN`, the three-hop default
route length ("how long should a circuit take to reach the 3-hop count",
and the spec's three-hop scenarios). -/
def DEFAULT_ROUTE_LEN : ℕ := 3

/-- The part of an origin circuit that `circuitstats.c` reads and writes:
its purpose, the relaxed-timeout flag, and whether its first hop is open
(`cpath && cpath->state == CPATH_STATE_OPEN`). -/
structure OriginCirc where
  purpose : ℕ
  relaxedTimeout : Bool
  firstHopOpen : Bool

/-- Embeds `circuit_build_times_scale_circ_counts`: halve the success,
timeout and close counts. -/
def circuit_build_times_scale_circ_counts (cbt : CBT) : CBT :=
  { cbt with
    numSucceeded := cbt.numSucceeded / 2
    numTimeouts := cbt.numTimeouts / 2
    numClosed := cbt.numClosed / 2 }

/-- Embeds `circuit_build_times_network_timeout`: count the timeout and,
when tracking is active and the first hop had succeeded, record a 1 in the
recent-circuits ring. -/
def circuit_build_times_network_timeout (cbt : CBT) (didOnehop : Bool) : CBT :=
  let cbt1 := { cbt with numTimeouts := cbt.numTimeouts + 1 }
  let cbt2 := if INT32_MAX ≤ cbt1.numTimeouts
    then circuit_build_times_scale_circ_counts cbt1 else cbt1
  if cbt2.liveTimeoutsAfterFirsthop ≠ [] ∧ 0 < cbt2.liveNumRecent then
    if didOnehop then
      { cbt2 with
        liveTimeoutsAfterFirsthop :=
          cbt2.liveTimeoutsAfterFirsthop.set cbt2.liveAfterFirsthopIdx 1
        liveAfterFirsthopIdx :=
          (cbt2.liveAfterFirsthopIdx + 1) % cbt2.liveNumRecent }
    else cbt2
  else cbt2

/-- Embeds `circuit_build_times_network_circ_success`: count the success
and record a 0 in the recent-circuits ring. -/
def circuit_build_times_network_circ_success (cbt : CBT) : CBT :=
  let cbt1 := { cbt with numSucceeded := cbt.numSucceeded + 1 }
  let cbt2 := if INT32_MAX ≤ cbt1.numSucceeded
    then circuit_build_times_scale_circ_counts cbt1 else cbt1
  if cbt2.liveTimeoutsAfterFirsthop ≠ [] ∧ 0 < cbt2.liveNumRecent then
    { cbt2 with
      liveTimeoutsAfterFirsthop :=
        cbt2.liveTimeoutsAfterFirsthop.set cbt2.liveAfterFirsthopIdx 0
      liveAfterFirsthopIdx :=
        (cbt2.liveAfterFirsthopIdx + 1) % cbt2.liveNumRecent }
  else cbt2

/-- Embeds `circuit_build_times_network_check_live`: the network counts as
live iff there are no nonlive timeouts. -/
def circuit_build_times_network_check_live (cbt : CBT) : Bool :=
  cbt.liveNonliveTimeouts = 0

/-- Count of recent first-hop timeouts, as summed by the loop in
`circuit_build_times_network_check_changed`. -/
def cbtRecentTimeoutCount (cbt : CBT) : ℕ :=
  if cbt.liveTimeoutsAfterFirsthop ≠ [] ∧ 0 < cbt.liveNumRecent then
    ((List.range cbt.liveNumRecent).map
      (fun i => cbt.liveTimeoutsAfterFirsthop.getD i 0)).sum
  else 0

/-- Embeds `circuit_build_times_network_check_changed`: when at least
`cbtmaxtimeouts` of the recent circuits timed out after their first hop,
reset the whole history, clear the ring, and double the timeout (or reseed
it with the initial timeout if it was below that; insanely large values are
only logged). -/
noncomputable def circuit_build_times_network_check_changed (K : CbtConsts)
    (E : CbtEnv) (cbt : CBT) : Bool × CBT :=
  if cbtRecentTimeoutCount cbt < E.cbtmaxtimeouts then (false, cbt)
  else
    let cbt1 := circuit_build_times_reset K cbt
    let cbt2 :=
      if cbt1.liveTimeoutsAfterFirsthop ≠ [] ∧ 0 < cbt1.liveNumRecent then
        { cbt1 with
          liveTimeoutsAfterFirsthop :=
            cbt1.liveTimeoutsAfterFirsthop.mapIdx
              (fun i x => if i < cbt1.liveNumRecent then 0 else x) }
      else cbt1
    let cbt3 := { cbt2 with liveAfterFirsthopIdx := 0 }
    let cbt4 :=
      if ((circuit_build_times_get_initial_timeout E : ℕ) : ℝ) ≤ cbt3.timeoutMs
      then
        if ((INT32_MAX / 2 : ℕ) : ℝ) < cbt3.timeoutMs ∨
            ((INT32_MAX / 2 : ℕ) : ℝ) < cbt3.closeMs
        then cbt3
        else { cbt3 with
               timeoutMs := cbt3.timeoutMs * 2
               closeMs := cbt3.closeMs * 2 }
      else { cbt3 with
             timeoutMs := ((circuit_build_times_get_initial_timeout E : ℕ) : ℝ)
             closeMs := ((circuit_build_times_get_initial_timeout E : ℕ) : ℝ) }
    (true, cbt4)

/-- Embeds `circuit_build_times_count_timeout`: with learning disabled,
pin both thresholds to the initial timeout; otherwise register the timeout
and check whether the network changed. -/
noncomputable def circuit_build_times_count_timeout (K : CbtConsts)
    (E : CbtEnv) (cbt : CBT) (didOnehop : Bool) : CBT :=
  if E.disabled then
    { cbt with
      timeoutMs := ((circuit_build_times_get_initial_timeout E : ℕ) : ℝ)
      closeMs := ((circuit_build_times_get_initial_timeout E : ℕ) : ℝ) }
  else
    (circuit_build_times_network_check_changed K E
      (circuit_build_times_network_timeout cbt didOnehop)).2

/-- Embeds `circuit_build_times_mark_circ_as_measurement_only`: report the
circuit as `CIRC_EVENT_FAILED` with `END_CIRC_REASON_TIMEOUT` (the effect
of the external `circuit_event_status`, returned here as an event list),
switch its purpose to `CIRCUIT_PURPOSE_C_MEASURE_TIMEOUT`, and, unless the
timeout was already relaxed, count the timeout. -/
noncomputable def circuit_build_times_mark_circ_as_measurement_only
    (K : CbtConsts) (E : CbtEnv) (circ : OriginCirc) (cbt : CBT) :
    OriginCirc × CBT × List (ℕ × ℕ) :=
  ({ circ with purpose := CIRCUIT_PURPOSE_C_MEASURE_TIMEOUT },
   (if ¬circ.relaxedTimeout then
      circuit_build_times_count_timeout K E cbt circ.firstHopOpen
    else cbt),
   [(CIRC_EVENT_FAILED, END_CIRC_REASON_TIMEOUT)])

/-- Embeds `circuit_build_times_handle_completed_hop`.  The externals it
consults are parameters: `wantToCount` (`circuit_timeout_want_to_count_circ`),
`timediff` (`tv_mdiff` of the begin timestamp and now, in ms, which can be
negative on clock jumps), `anyOpened` (`circuit_any_opened_circuits_cached`)
and `openedLen` (`circuit_get_cpath_opened_len`).  The `(build_time_t)`
cast of `timediff` is the `uint32_t` reduction of its non-negative value. -/
noncomputable def circuit_build_times_handle_completed_hop (K : CbtConsts)
    (E : CbtEnv) (circ : OriginCirc) (cbt : CBT) (wantToCount : Bool)
    (timediff : ℤ) (anyOpened : Bool) (openedLen : ℕ) :
    OriginCirc × CBT × List (ℕ × ℕ) :=
  if E.disabled then (circ, cbt, [])
  else if ¬wantToCount then (circ, cbt, [])
  else
    let step1 : OriginCirc × CBT × List (ℕ × ℕ) :=
      if cbt.timeoutMs < (timediff : ℝ) ∧ anyOpened then
        if circ.purpose ≠ CIRCUIT_PURPOSE_C_MEASURE_TIMEOUT then
          circuit_build_times_mark_circ_as_measurement_only K E circ cbt
        else (circ, cbt, [])
      else (circ, cbt, [])
    let circ1 := step1.1
    let cbt1 := step1.2.1
    if openedLen = DEFAULT_ROUTE_LEN then
      if timediff < 0 ∨ 2 * cbt1.closeMs + 1000 < (timediff : ℝ) then
        (circ1, cbt1, step1.2.2)
      else
        let cbt2 :=
          if circuit_build_times_network_check_live cbt1 then
            circuit_build_times_set_timeout K E
              (circuit_build_times_add_time K cbt1
                (timediff.toNat % 4294967296)).2
          else cbt1
        let cbt3 :=
          if circ1.purpose ≠ CIRCUIT_PURPOSE_C_MEASURE_TIMEOUT then
            circuit_build_times_network_circ_success cbt2
          else cbt2
        (circ1, cbt3, step1.2.2)
    else (circ1, cbt1, step1.2.2)

/-- Modelled from the spec: the circuit-expiry collaborator
(`circuit_expire_building` in `circuituse.c`, not in this tree) transitions
a circuit that the build-time module reported `CIRC_EVENT_FAILED` with
`END_CIRC_REASON_TIMEOUT` to CLOSING with reason `TIMEOUT` (section 5,
"Cancellation and timeouts").  `some r` is "transitioned to CLOSING with
reason `r`". -/
def expireReportedCirc (evs : List (ℕ × ℕ)) : Option ℕ :=
  if (CIRC_EVENT_FAILED, END_CIRC_REASON_TIMEOUT) ∈ evs then
    some END_CIRC_REASON_TIMEOUT
  else none

theorem initial_timeout_ge_min (E : CbtEnv) :
    circuit_build_times_min_timeout E ≤ circuit_build_times_initial_timeout E := by
  unfold circuit_build_times_initial_timeout
  split <;> omega

theorem calcTimeout_mono (Xm : ℕ) (alpha : Option ℝ) {q1 q2 : ℝ}
    (h1 : q1 ≤ q2) (h2 : q2 < 1) :
    circuit_build_times_calculate_timeout Xm alpha q1 ≤
      circuit_build_times_calculate_timeout Xm alpha q2 := by
  cases alpha with
  | none => exact le_refl _
  | some al =>
    simp only [circuit_build_times_calculate_timeout]
    by_cases hal : 0 < al
    · simp only [if_pos hal]
      have hq2' : (0:ℝ) < 1 - q2 := by linarith
      have hq1' : (0:ℝ) < 1 - q1 := by linarith
      have hp2 : 0 < (1 - q2) ^ (1/al) := Real.rpow_pos_of_pos hq2' _
      have hp1 : 0 < (1 - q1) ^ (1/al) := Real.rpow_pos_of_pos hq1' _
      have hple : (1 - q2) ^ (1/al) ≤ (1 - q1) ^ (1/al) :=
        Real.rpow_le_rpow (le_of_lt hq2') (by linarith) (by positivity)
      simp only [if_pos hp1, if_pos hp2]
      refine min_le_min ?_ le_rfl
      gcongr
    · simp [hal]

theorem quantile_le_close_quantile (E : CbtEnv) :
    circuit_build_times_quantile_cutoff E ≤
      circuit_build_times_close_quantile E := by
  unfold circuit_build_times_quantile_cutoff circuit_build_times_close_quantile
  have h : E.cbtquantile ≤
      (if E.cbtclosequantile < E.cbtquantile then E.cbtquantile
       else E.cbtclosequantile) := by
    split <;> omega
  have := (Nat.cast_le (α := ℝ)).mpr h
  linarith

theorem close_quantile_lt_one (E : CbtEnv) (hq : E.cbtquantile ≤ 99)
    (hcq : E.cbtclosequantile ≤ 99) :
    circuit_build_times_close_quantile E < 1 := by
  unfold circuit_build_times_close_quantile
  rw [div_lt_one (by norm_num : (0:ℝ) < 100)]
  have h : (if E.cbtclosequantile < E.cbtquantile then E.cbtquantile
      else E.cbtclosequantile) ≤ 99 := by
    split <;> omega
  have := (Nat.cast_le (α := ℝ)).mpr h
  have h99 : ((99:ℕ) : ℝ) = 99 := by norm_num
  linarith

theorem set_timeout_worker_ordering (K : CbtConsts) (E : CbtEnv) (cbt : CBT)
    (hq : E.cbtquantile ≤ 99) (hcq : E.cbtclosequantile ≤ 99)
    (hen : circuit_build_times_enough_to_compute E cbt = true)
    (hxm : circuit_build_times_get_xm K E cbt ≠ 0) :
    (circuit_build_times_set_timeout_worker K E cbt).1 = true ∧
    (circuit_build_times_set_timeout_worker K E cbt).2.timeoutMs ≤
      (circuit_build_times_set_timeout_worker K E cbt).2.closeMs := by
  have hua : (circuit_build_times_update_alpha K E cbt).1 = true := by
    simp [circuit_build_times_update_alpha, hxm]
  have hmono := calcTimeout_mono
    (circuit_build_times_update_alpha K E cbt).2.Xm
    (circuit_build_times_update_alpha K E cbt).2.alpha
    (quantile_le_close_quantile E) (close_quantile_lt_one E hq hcq)
  constructor
  · simp [circuit_build_times_set_timeout_worker, hen, hua]
  · simp only [circuit_build_times_set_timeout_worker, hen, hua]
    set maxT := circuit_build_times_max K
      (circuit_build_times_update_alpha K E cbt).2 with hmax
    set T1 := circuit_build_times_calculate_timeout
      (circuit_build_times_update_alpha K E cbt).2.Xm
      (circuit_build_times_update_alpha K E cbt).2.alpha
      (circuit_build_times_quantile_cutoff E) with hT1
    set C1 := circuit_build_times_calculate_timeout
      (circuit_build_times_update_alpha K E cbt).2.Xm
      (circuit_build_times_update_alpha K E cbt).2.alpha
      (circuit_build_times_close_quantile E) with hC1
    have hm0 : (0:ℝ) ≤ (maxT : ℝ) := Nat.cast_nonneg _
    have hcap : (if (maxT : ℝ) < T1 then (maxT : ℝ) else T1) ≤
        (if maxT < INT32_MAX / 2 ∧ 2 * (maxT : ℝ) < C1
         then 2 * (maxT : ℝ) else C1) := by
      by_cases h1 : (maxT : ℝ) < T1
      · by_cases h2 : maxT < INT32_MAX / 2 ∧ 2 * (maxT : ℝ) < C1
        · rw [if_pos h1, if_pos h2]
          linarith
        · rw [if_pos h1, if_neg h2]
          linarith [hmono]
      · by_cases h2 : maxT < INT32_MAX / 2 ∧ 2 * (maxT : ℝ) < C1
        · rw [if_neg h1, if_pos h2]
          push_neg at h1
          linarith
        · rw [if_neg h1, if_neg h2]
          linarith [hmono]
    exact le_trans hcap (le_max_left _ _)

/-- C8: when `circuit_build_times_set_timeout` actually recomputes (learning
enabled, enough data, `circuit_build_times_set_timeout_worker` returns 1),
the resulting state satisfies `close_ms >= timeout_ms >= cbtmintimeout`: the
close threshold never drops below the timeout threshold, and the timeout
never drops below the consensus minimum. -/
theorem cbt_set_timeout_invariant (K : CbtConsts) (E : CbtEnv) (cbt : CBT)
    (hd : E.disabled = false)
    (hq : E.cbtquantile ≤ 99) (hcq : E.cbtclosequantile ≤ 99)
    (hen : circuit_build_times_enough_to_compute E cbt = true)
    (hxm : circuit_build_times_get_xm K E cbt ≠ 0) :
    (circuit_build_times_set_timeout_worker K E cbt).1 = true ∧
    (circuit_build_times_min_timeout E : ℝ) ≤
      (circuit_build_times_set_timeout K E cbt).timeoutMs ∧
    (circuit_build_times_set_timeout K E cbt).timeoutMs ≤
      (circuit_build_times_set_timeout K E cbt).closeMs := by
  obtain ⟨hfst, hord⟩ := set_timeout_worker_ordering K E cbt hq hcq hen hxm
  have hini : (circuit_build_times_min_timeout E : ℝ) ≤
      ((circuit_build_times_initial_timeout E : ℕ) : ℝ) :=
    Nat.cast_le.mpr (initial_timeout_ge_min E)
  refine ⟨hfst, ?_⟩
  have hd' : ¬(E.disabled = true) := by simp [hd]
  simp only [circuit_build_times_set_timeout, if_neg hd', hfst]
  rw [if_neg (show ¬¬True from not_not_intro trivial)]
  split_ifs with h1 h2
  · exact ⟨le_refl _, hini⟩
  · exact ⟨le_refl _, not_lt.mp h2⟩
  · exact ⟨not_lt.mp h1, hord⟩

theorem cbtMaxFold_le (K : CbtConsts) (l : List ℕ) (m : ℕ) :
    m ≤ l.foldl (fun m x => if m < x ∧ x ≠ K.buildAbandoned then x else m) m := by
  induction l generalizing m with
  | nil => exact le_refl m
  | cons x rest ih =>
    refine le_trans ?_ (ih _)
    dsimp only
    split_ifs with h
    · exact le_of_lt h.1
    · exact le_refl m

theorem cbtMaxFold_mem (K : CbtConsts) (l : List ℕ) (m : ℕ) (e : ℕ)
    (he : e ∈ l) (hab : e ≠ K.buildAbandoned) :
    e ≤ l.foldl (fun m x => if m < x ∧ x ≠ K.buildAbandoned then x else m) m := by
  induction l generalizing m with
  | nil => cases he
  | cons x rest ih =>
    rcases List.mem_cons.mp he with rfl | hmem
    · refine le_trans ?_ (cbtMaxFold_le K rest _)
      dsimp only
      split_ifs with h
      · exact le_refl e
      · rcases not_and_or.mp h with h1 | h2
        · exact le_of_not_lt h1
        · exact absurd hab (by simpa using h2)
    · exact ih _ hmem

theorem le_circuit_build_times_max (K : CbtConsts) (cbt : CBT) (e : ℕ)
    (he : e ∈ cbt.times) (hab : e ≠ K.buildAbandoned) :
    e ≤ circuit_build_times_max K cbt :=
  cbtMaxFold_mem K cbt.times 0 e he hab

/-- Validity test used throughout the histogram code: a recorded time that
is neither uninitialized (0) nor the abandoned sentinel. -/
def cbtValidP (K : CbtConsts) (x : ℕ) : Bool :=
  !(x == 0 || x == K.buildAbandoned)

theorem cbtHistFold_length (K : CbtConsts) (l : List ℕ) (h : List ℕ) :
    (l.foldl
      (fun h x =>
        if x = 0 ∨ x = K.buildAbandoned then h
        else h.set (x / K.binWidth) (h.getD (x / K.binWidth) 0 + 1)) h).length =
      h.length := by
  induction l generalizing h with
  | nil => rfl
  | cons x rest ih =>
    simp only [List.foldl_cons]
    split_ifs with hx
    · exact ih h
    · rw [ih]
      simp

theorem cbtHistFold_getD (K : CbtConsts) (l : List ℕ) (h : List ℕ) (i : ℕ)
    (hi : i < h.length)
    (hb : ∀ x ∈ l, cbtValidP K x = true → x / K.binWidth < h.length) :
    (l.foldl
      (fun h x =>
        if x = 0 ∨ x = K.buildAbandoned then h
        else h.set (x / K.binWidth) (h.getD (x / K.binWidth) 0 + 1)) h).getD i 0 =
      h.getD i 0 +
        l.countP (fun x => cbtValidP K x && (x / K.binWidth == i)) := by
  induction l generalizing h with
  | nil => simp
  | cons x rest ih =>
    have hb' : ∀ y ∈ rest, cbtValidP K y = true → y / K.binWidth < h.length :=
      fun y hy => hb y (List.mem_cons_of_mem x hy)
    simp only [List.foldl_cons]
    split_ifs with hx
    · have hpx : (cbtValidP K x && (x / K.binWidth == i)) = false := by
        rcases hx with h0 | hA
        · simp [cbtValidP, h0]
        · simp [cbtValidP, hA]
      rw [ih h hi hb', List.countP_cons, hpx]
      simp
    · have hvx : cbtValidP K x = true := by
        obtain ⟨h0, hA⟩ := not_or.mp hx
        simp [cbtValidP, h0, hA]
      have hxlt : x / K.binWidth < h.length := hb x (List.mem_cons_self x rest) hvx
      have hlen' : i < (h.set (x / K.binWidth)
          (h.getD (x / K.binWidth) 0 + 1)).length := by simpa using hi
      have hb'' : ∀ y ∈ rest, cbtValidP K y = true →
          y / K.binWidth < (h.set (x / K.binWidth)
            (h.getD (x / K.binWidth) 0 + 1)).length := by
        intro y hy hv
        simpa using hb' y hy hv
      rw [ih _ hlen' hb'', List.countP_cons]
      have hget : (h.set (x / K.binWidth)
          (h.getD (x / K.binWidth) 0 + 1)).getD i 0 =
          if x / K.binWidth = i then h.getD i 0 + 1 else h.getD i 0 := by
        rw [List.getD_eq_getElem _ _ hlen', List.getElem_set,
          List.getD_eq_getElem _ _ hi]
        split_ifs with he
        · subst he
          rw [List.getD_eq_getElem h 0 hxlt]
        · rfl
      rw [hget]
      by_cases he : x / K.binWidth = i
      · simp [he, hvx]
        omega
      · simp [he, hvx]

theorem cbtValidP_iff (K : CbtConsts) (x : ℕ) :
    cbtValidP K x = true ↔ x ≠ 0 ∧ x ≠ K.buildAbandoned := by
  simp [cbtValidP]

theorem create_histogram_length (K : CbtConsts) (cbt : CBT) :
    (circuit_build_times_create_histogram K cbt).length =
      1 + circuit_build_times_max K cbt / K.binWidth := by
  unfold circuit_build_times_create_histogram
  rw [cbtHistFold_length]
  simp

theorem create_histogram_getD (K : CbtConsts) (cbt : CBT) (i : ℕ)
    (hi : i < 1 + circuit_build_times_max K cbt / K.binWidth) :
    (circuit_build_times_create_histogram K cbt).getD i 0 =
      cbt.times.countP (fun x => cbtValidP K x && (x / K.binWidth == i)) := by
  unfold circuit_build_times_create_histogram
  rw [cbtHistFold_getD]
  · simp
  · simpa using hi
  · intro x hx hv
    obtain ⟨_, hab⟩ := (cbtValidP_iff K x).mp hv
    have hle : x ≤ circuit_build_times_max K cbt :=
      le_circuit_build_times_max K cbt x hx hab
    have := Nat.div_le_div_right (c := K.binWidth) hle
    simpa using lt_of_le_of_lt this (by omega)

theorem cbtBinCover (K : CbtConsts) (cbt : CBT) (x : ℕ) (hx : x ∈ cbt.times)
    (hv : cbtValidP K x = true) :
    x / K.binWidth < 1 + circuit_build_times_max K cbt / K.binWidth := by
  obtain ⟨_, hab⟩ := (cbtValidP_iff K x).mp hv
  have hle : x ≤ circuit_build_times_max K cbt :=
    le_circuit_build_times_max K cbt x hx hab
  have := Nat.div_le_div_right (c := K.binWidth) hle
  omega

theorem countP_bin_partition (K : CbtConsts) (l : List ℕ) (L : ℕ)
    (hb : ∀ x ∈ l, cbtValidP K x = true → x / K.binWidth < L) :
    (∑ i ∈ Finset.range L,
      l.countP (fun x => cbtValidP K x && (x / K.binWidth == i))) =
      l.countP (cbtValidP K) := by
  induction l with
  | nil => simp
  | cons x rest ih =>
    have hb' : ∀ y ∈ rest, cbtValidP K y = true → y / K.binWidth < L :=
      fun y hy hv => hb y (List.mem_cons_of_mem x hy) hv
    simp only [List.countP_cons]
    rw [Finset.sum_add_distrib, ih hb']
    by_cases hv : cbtValidP K x = true
    · have hmem : x / K.binWidth ∈ Finset.range L :=
        Finset.mem_range.mpr (hb x (List.mem_cons_self x rest) hv)
      have hsum : (∑ i ∈ Finset.range L,
          if (cbtValidP K x && (x / K.binWidth == i)) = true then 1 else 0) = 1 := by
        rw [show (fun i => if (cbtValidP K x && (x / K.binWidth == i)) = true
            then 1 else 0) = fun i => if x / K.binWidth = i then 1 else 0 by
          funext i
          by_cases he : x / K.binWidth = i <;> simp [hv, he]]
        rw [Finset.sum_ite_eq (Finset.range L) (x / K.binWidth) (fun _ => 1)]
        simp [hmem]
      rw [hsum]
      simp [hv]
    · have hvf : cbtValidP K x = false := by simpa using hv
      have hsum : (∑ i ∈ Finset.range L,
          if (cbtValidP K x && (x / K.binWidth == i)) = true then 1 else 0) = 0 :=
        Finset.sum_eq_zero fun i _ => by simp [hvf]
      rw [hsum]
      simp [hvf]

theorem sum_snd_filterMap (f g : ℕ → ℕ) (idxs : List ℕ) :
    (((idxs.filterMap
        (fun i => if g i = 0 then none else some (f i, g i))).map Prod.snd).sum)
      = (idxs.map g).sum := by
  induction idxs with
  | nil => rfl
  | cons i rest ih =>
    simp only [List.filterMap_cons, List.map_cons, List.sum_cons]
    split_ifs with h
    · rw [ih, h]
      simp
    · simp only [List.map_cons, List.sum_cons, ih]

theorem mem_flatMap_filterMap {f g : ℕ → ℕ} {idxs : List ℕ} {t : ℕ}
    (ht : t ∈ (idxs.filterMap
        (fun i => if g i = 0 then none else some (f i, g i))).flatMap
      (fun p => List.replicate p.2 p.1)) :
    ∃ i ∈ idxs, g i ≠ 0 ∧ t = f i := by
  obtain ⟨p, hp, hmem⟩ := List.mem_flatMap.mp ht
  obtain ⟨i, hi, hpi⟩ := List.mem_filterMap.mp hp
  by_cases h : g i = 0
  · rw [if_pos h] at hpi
    cases hpi
  · rw [if_neg h] at hpi
    obtain rfl : (f i, g i) = p := Option.some.inj hpi
    exact ⟨i, hi, h, List.eq_of_mem_replicate hmem⟩

theorem count_flatMap_lines_eq_zero {f g : ℕ → ℕ} {idxs : List ℕ} {b : ℕ}
    (hb : ∀ i ∈ idxs, g i ≠ 0 → f i ≠ b) :
    ((idxs.filterMap
        (fun i => if g i = 0 then none else some (f i, g i))).flatMap
      (fun p => List.replicate p.2 p.1)).count b = 0 := by
  rw [List.count_eq_zero]
  intro hmem
  obtain ⟨i, hi, hgi, hfb⟩ := mem_flatMap_filterMap hmem
  exact hb i hi hgi hfb.symm

theorem cbtParseLines_ok (K : CbtConsts) (total abandoned : ℕ)
    (lines : List (ℕ × ℕ)) (cnt : ℕ) (acc : List ℕ)
    (hms : ∀ p ∈ lines, p.1 ≤ K.buildTimeMax ∧ p.2 ≤ 4294967295)
    (hsum : cnt + (lines.map Prod.snd).sum + abandoned ≤ total) :
    cbtParseLines K total abandoned lines cnt acc =
      (cnt + (lines.map Prod.snd).sum,
       acc ++ lines.flatMap (fun p => List.replicate p.2 p.1), false) := by
  induction lines generalizing cnt acc with
  | nil => simp [cbtParseLines]
  | cons p rest ih =>
    obtain ⟨ms, count⟩ := p
    obtain ⟨hms1, hms2⟩ := hms _ (List.mem_cons_self _ _)
    have hsum' : cnt + count + (rest.map Prod.snd).sum + abandoned ≤ total := by
      simp only [List.map_cons, List.sum_cons] at hsum
      omega
    rw [cbtParseLines, if_neg (not_lt.mpr hms1), if_neg (not_lt.mpr hms2),
      if_neg (by omega : ¬ total < cnt + count + abandoned),
      ih _ _ (fun q hq => hms q (List.mem_cons_of_mem _ hq)) hsum']
    simp only [List.map_cons, List.sum_cons, List.flatMap_cons,
      List.append_assoc]
    simp [Nat.add_assoc]

theorem cbtSwap_length (l : List ℕ) (i j : ℕ) :
    (cbtSwap l i j).length = l.length := by
  simp [cbtSwap]

theorem cbtSwap_count (l : List ℕ) (i j : ℕ) (hi : i < l.length)
    (hj : j < l.length) (b : ℕ) :
    (cbtSwap l i j).count b = l.count b := by
  unfold cbtSwap
  have hj' : j < (l.set i (l.getD j 0)).length := by simpa using hj
  rw [List.count_set _ _ _ _ hj', List.count_set _ _ _ _ hi]
  simp only [List.getElem_set, List.getD_eq_getElem l 0 hj,
    List.getD_eq_getElem l 0 hi]
  have hci : l[i] = b → 1 ≤ l.count b := fun h =>
    List.count_pos_iff.mpr (h ▸ List.getElem_mem hi)
  by_cases hij : i = j
  · subst hij
    by_cases h1 : l[i] = b
    · have := hci h1
      simp [h1]
      try omega
    · simp [h1]
      try omega
  · by_cases h1 : l[i] = b <;> by_cases h2 : l[j] = b
    · have := hci h1
      simp [h1, h2, hij]
      try omega
    · have := hci h1
      simp [h1, h2, hij]
      try omega
    · simp [h1, h2, hij]
      try omega
    · simp [h1, h2, hij]
      try omega

theorem cbtFisherYates_length (r : ℕ → ℕ) (n : ℕ) (l : List ℕ) :
    (cbtFisherYates r n l).length = l.length := by
  induction n generalizing l with
  | zero => rfl
  | succ m ih =>
    rw [cbtFisherYates, ih, cbtSwap_length]

theorem cbtFisherYates_count (r : ℕ → ℕ) (n : ℕ) (l : List ℕ)
    (hn : n < l.length) (b : ℕ) :
    (cbtFisherYates r n l).count b = l.count b := by
  induction n generalizing l with
  | zero => rfl
  | succ m ih =>
    rw [cbtFisherYates]
    have hk : r (m + 1) % (m + 2) < l.length :=
      lt_of_le_of_lt (Nat.le_of_lt_succ (Nat.mod_lt _ (by omega))) hn
    have hm1 : m + 1 < l.length := hn
    rw [ih _ (by rw [cbtSwap_length]; omega), cbtSwap_count _ _ _ hk hm1]

theorem cbtAddAll_fresh (K : CbtConsts) (cbt0 : CBT) (l : List ℕ)
    (_hN : 0 < K.ncircuits) (hlen : l.length ≤ K.ncircuits)
    (h0 : cbt0.times = List.replicate K.ncircuits 0) (hidx : cbt0.idx = 0)
    (htot : cbt0.total = 0)
    (hl : ∀ t ∈ l, t ≠ 0 ∧ t ≤ K.buildTimeMax) :
    (cbtAddAll K cbt0 l).times =
      l ++ List.replicate (K.ncircuits - l.length) 0 ∧
    (cbtAddAll K cbt0 l).total = l.length ∧
    (cbtAddAll K cbt0 l).idx = l.length % K.ncircuits := by
  induction l using List.reverseRecOn with
  | nil =>
    refine ⟨by simpa [cbtAddAll] using h0, by simpa [cbtAddAll] using htot, ?_⟩
    simp [cbtAddAll, hidx]
  | append_singleton l t ih =>
    have hlen' : l.length ≤ K.ncircuits := by
      simp only [List.length_append, List.length_cons, List.length_nil] at hlen
      omega
    have hlt : l.length < K.ncircuits := by
      simp only [List.length_append, List.length_cons, List.length_nil] at hlen
      omega
    have hl' : ∀ s ∈ l, s ≠ 0 ∧ s ≤ K.buildTimeMax :=
      fun s hs => hl s (by simp [hs])
    have ht : t ≠ 0 ∧ t ≤ K.buildTimeMax := hl t (by simp)
    obtain ⟨Htimes, Htot, Hidx⟩ := ih hlen' hl'
    have hguard : ¬(t = 0 ∨ K.buildTimeMax < t) := by
      push_neg
      exact ⟨ht.1, ht.2⟩
    rw [cbtAddAll_append]
    simp only [circuit_build_times_add_time, if_neg hguard]
    refine ⟨?_, ?_, ?_⟩
    · rw [Htimes, Hidx, Nat.mod_eq_of_lt hlt, List.set_append,
        if_neg (by omega)]
      have hm : 0 < K.ncircuits - l.length := by omega
      obtain ⟨m', hm'⟩ : ∃ m', K.ncircuits - l.length = m' + 1 :=
        ⟨K.ncircuits - l.length - 1, by omega⟩
      rw [hm']
      simp only [List.length_append, List.length_cons, List.length_nil,
        Nat.sub_self, List.replicate_succ, List.append_assoc]
      have : K.ncircuits - (l.length + 1) = m' := by omega
      simp [this]
    · rw [Htot, if_pos hlt]
      simp
    · rw [Hidx, Nat.mod_add_mod]
      simp

theorem cbtPrefixNonzero_append (l : List ℕ) (m : ℕ)
    (hl : ∀ x ∈ l, x ≠ 0) :
    cbtPrefixNonzero (l ++ List.replicate m 0) = l.length := by
  induction l with
  | nil =>
    cases m with
    | zero => rfl
    | succ m' => simp [cbtPrefixNonzero]
  | cons x rest ih =>
    have hx : x ≠ 0 := hl x (List.mem_cons_self x rest)
    have ihh := ih (fun y hy => hl y (List.mem_cons_of_mem x hy))
    rw [List.cons_append,
      show cbtPrefixNonzero (x :: (rest ++ List.replicate m 0)) =
        if x = 0 then 0
        else 1 + cbtPrefixNonzero (rest ++ List.replicate m 0) from rfl,
      if_neg hx, ihh, List.length_cons]
    omega

theorem update_alpha_total_eq (K : CbtConsts) (E : CbtEnv) (c : CBT) :
    (circuit_build_times_update_alpha K E c).2.total = c.total := by
  simp only [circuit_build_times_update_alpha]
  split <;> rfl

theorem worker_total_eq (K : CbtConsts) (E : CbtEnv) (c : CBT) :
    (circuit_build_times_set_timeout_worker K E c).2.total = c.total := by
  simp only [circuit_build_times_set_timeout_worker]
  split_ifs <;> first
    | rfl
    | exact update_alpha_total_eq K E c

theorem set_timeout_total_eq (K : CbtConsts) (E : CbtEnv) (c : CBT) :
    (circuit_build_times_set_timeout K E c).total = c.total := by
  simp only [circuit_build_times_set_timeout]
  split_ifs <;> simp [worker_total_eq]

theorem cbtFisherYates_count_all (r : ℕ → ℕ) (l : List ℕ)
    (hsmall : l.length ≤ 2147483646) (b : ℕ) :
    (cbtFisherYates r (min l.length 2147483646 - 1) l).count b = l.count b := by
  rw [Nat.min_eq_left hsmall]
  rcases Nat.eq_zero_or_pos l.length with h0 | hpos
  · rw [h0]
    rfl
  · exact cbtFisherYates_count r (l.length - 1) l (by omega) b

theorem countP_valid_add_abandoned (K : CbtConsts)
    (hAB0 : K.buildAbandoned ≠ 0) (l : List ℕ) :
    l.countP (cbtValidP K) + l.count K.buildAbandoned =
      l.countP (fun x => !(x == 0)) := by
  induction l with
  | nil => rfl
  | cons x rest ih =>
    simp only [List.countP_cons, List.count_cons]
    by_cases h0 : x = 0
    · subst h0
      have h1 : cbtValidP K 0 = false := by simp [cbtValidP]
      simp [h1, Ne.symm hAB0]
      omega
    · by_cases hA : x = K.buildAbandoned
      · subst hA
        have h1 : cbtValidP K K.buildAbandoned = false := by simp [cbtValidP]
        simp [h1, hAB0]
        omega
      · have h1 : cbtValidP K x = true := by simp [cbtValidP, h0, hA]
        simp [h1, h0, hA]
        omega

theorem update_alpha_times_eq (K : CbtConsts) (E : CbtEnv) (c : CBT) :
    (circuit_build_times_update_alpha K E c).2.times = c.times := by
  simp only [circuit_build_times_update_alpha]
  split <;> rfl

theorem worker_times_eq (K : CbtConsts) (E : CbtEnv) (c : CBT) :
    (circuit_build_times_set_timeout_worker K E c).2.times = c.times := by
  simp only [circuit_build_times_set_timeout_worker]
  split_ifs <;> first
    | rfl
    | exact update_alpha_times_eq K E c

theorem set_timeout_times_eq (K : CbtConsts) (E : CbtEnv) (c : CBT) :
    (circuit_build_times_set_timeout K E c).times = c.times := by
  simp only [circuit_build_times_set_timeout]
  split_ifs with h1 h2 h3 h4 <;>
    simp [worker_times_eq]

theorem circ_success_times_eq (c : CBT) :
    (circuit_build_times_network_circ_success c).times = c.times := by
  simp only [circuit_build_times_network_circ_success]
  split_ifs <;> rfl

/-- C3: writing the build-time history to persistent state and loading it
back succeeds (`circuit_build_times_parse_state` returns 0) and yields an
estimator with the same `total_build_times` and the same number of
abandoned entries, in which every non-abandoned recorded time is the
`CBT_BIN_TO_MS` label of a histogram bin containing an original sample, so
it differs from that sample by at most half a bin width; the loader ends by
recomputing the timeout with `circuit_build_times_set_timeout`. -/
theorem cbt_state_roundtrip (K : CbtConsts) (E : CbtEnv) (r : ℕ → ℕ)
    (cbt : CBT)
    (hd : E.disabled = false) (hN : 0 < K.ncircuits)
    (hNsmall : K.ncircuits ≤ 2147483646) (hW : 2 ≤ K.binWidth)
    (hAB0 : K.buildAbandoned ≠ 0) (hABmax : K.buildAbandoned ≤ K.buildTimeMax)
    (hlen : cbt.times.length = K.ncircuits)
    (htot : cbt.total = cbt.times.countP (fun x => !(x == 0)))
    (hvalid : ∀ x ∈ cbt.times, x ≠ 0 → x ≠ K.buildAbandoned →
      cbtBinToMs K (x / K.binWidth) ≤ K.buildTimeMax ∧
      cbtBinToMs K (x / K.binWidth) ≠ K.buildAbandoned) :
    (circuit_build_times_parse_state K E r
        (circuit_build_times_update_state K cbt)).1 = 0 ∧
    (circuit_build_times_parse_state K E r
        (circuit_build_times_update_state K cbt)).2.total = cbt.total ∧
    (circuit_build_times_parse_state K E r
        (circuit_build_times_update_state K cbt)).2.times.count
      K.buildAbandoned = cbt.times.count K.buildAbandoned ∧
    ∀ t ∈ (circuit_build_times_parse_state K E r
        (circuit_build_times_update_state K cbt)).2.times,
      t ≠ 0 → t ≠ K.buildAbandoned →
      ∃ s ∈ cbt.times, s ≠ 0 ∧ s ≠ K.buildAbandoned ∧
        t = cbtBinToMs K (s / K.binWidth) ∧
        (t : ℤ) - (s : ℤ) ≤ (K.binWidth / 2 : ℕ) ∧
        (s : ℤ) - (t : ℤ) ≤ (K.binWidth / 2 : ℕ) := by
  have hW0 : 0 < K.binWidth := by omega
  set hist := circuit_build_times_create_histogram K cbt with hhist
  set L := hist.length with hLdef
  have hL : L = 1 + circuit_build_times_max K cbt / K.binWidth :=
    create_histogram_length K cbt
  set g : ℕ → ℕ := fun i => hist.getD i 0 with hgdef
  set f : ℕ → ℕ := cbtBinToMs K with hfdef
  set lines : List (ℕ × ℕ) := (List.range L).filterMap
    (fun i => if g i = 0 then none else some (f i, g i)) with hlinesdef
  set ab : ℕ := (cbt.times.filter (fun x => x == K.buildAbandoned)).length
    with habdef
  have hab : ab = cbt.times.count K.buildAbandoned := by
    rw [habdef, List.count]
    exact (List.countP_eq_length_filter _ _).symm
  have hg : ∀ i < L, g i =
      cbt.times.countP (fun x => cbtValidP K x && (x / K.binWidth == i)) := by
    intro i hi
    exact create_histogram_getD K cbt i (hL ▸ hi)
  have hline_wit : ∀ i < L, g i ≠ 0 → ∃ s ∈ cbt.times,
      s ≠ 0 ∧ s ≠ K.buildAbandoned ∧ s / K.binWidth = i := by
    intro i hi hgi
    rw [hg i hi] at hgi
    obtain ⟨s, hs, hsp⟩ := List.countP_pos_iff.mp (Nat.pos_of_ne_zero hgi)
    have hsp' := hsp
    simp only [Bool.and_eq_true, beq_iff_eq] at hsp'
    obtain ⟨hv, hbin⟩ := hsp'
    obtain ⟨hs0, hsA⟩ := (cbtValidP_iff K s).mp hv
    exact ⟨s, hs, hs0, hsA, hbin⟩
  have htotN : cbt.total ≤ K.ncircuits := by
    rw [htot, ← hlen]
    exact List.countP_le_length _
  have hsumlines : (lines.map Prod.snd).sum =
      cbt.times.countP (cbtValidP K) := by
    rw [hlinesdef, sum_snd_filterMap f g (List.range L)]
    have h1 : ((List.range L).map g).sum = ∑ i ∈ Finset.range L, g i := rfl
    rw [h1, Finset.sum_congr rfl
      (fun i hi => hg i (Finset.mem_range.mp hi))]
    refine countP_bin_partition K cbt.times L ?_
    intro x hx hv
    rw [hL]
    exact cbtBinCover K cbt x hx hv
  have hva : cbt.times.countP (cbtValidP K) + cbt.times.count K.buildAbandoned
      = cbt.total := by
    rw [htot]
    exact countP_valid_add_abandoned K hAB0 cbt.times
  have hms : ∀ p ∈ lines, p.1 ≤ K.buildTimeMax ∧ p.2 ≤ 4294967295 := by
    intro p hp
    rw [hlinesdef] at hp
    obtain ⟨i, hi, hpi⟩ := List.mem_filterMap.mp hp
    have hiL : i < L := List.mem_range.mp hi
    by_cases h : g i = 0
    · rw [if_pos h] at hpi
      cases hpi
    · rw [if_neg h] at hpi
      obtain rfl : (f i, g i) = p := Option.some.inj hpi
      obtain ⟨s, hs, hs0, hsA, hbin⟩ := hline_wit i hiL h
      constructor
      · show f i ≤ K.buildTimeMax
        rw [hfdef, ← hbin]
        exact (hvalid s hs hs0 hsA).1
      · show g i ≤ 4294967295
        rw [hg i hiL]
        calc cbt.times.countP _ ≤ cbt.times.length := List.countP_le_length _
          _ = K.ncircuits := hlen
          _ ≤ 4294967295 := by omega
  have hsum0 : 0 + (lines.map Prod.snd).sum + ab ≤ cbt.total := by
    rw [hsumlines, hab]
    omega
  have hlines_ok := cbtParseLines_ok K cbt.total ab lines 0 [] hms hsum0
  set labelsFlat : List ℕ :=
    lines.flatMap (fun p => List.replicate p.2 p.1) with hlfdef
  have hlf_len : labelsFlat.length = (lines.map Prod.snd).sum := by
    rw [hlfdef]
    simp only [List.length_flatMap]
    have hfun : (List.length ∘ fun p : ℕ × ℕ => List.replicate p.2 p.1) =
        Prod.snd := by
      funext p
      simp
    rw [hfun]
  set loaded : List ℕ := labelsFlat ++ List.replicate ab K.buildAbandoned
    with hloadeddef
  have hloaded_len : loaded.length = cbt.total := by
    rw [hloadeddef, List.length_append, List.length_replicate, hlf_len,
      hsumlines, hab]
    omega
  have hlf_noAB : labelsFlat.count K.buildAbandoned = 0 := by
    rw [hlfdef, hlinesdef]
    refine count_flatMap_lines_eq_zero ?_
    intro i hi hgi
    obtain ⟨s, hs, hs0, hsA, hbin⟩ := hline_wit i (List.mem_range.mp hi) hgi
    rw [hfdef, ← hbin]
    exact (hvalid s hs hs0 hsA).2
  have hloaded_mem : ∀ t ∈ loaded, t ≠ 0 ∧ t ≤ K.buildTimeMax := by
    intro t ht
    rw [hloadeddef] at ht
    rcases List.mem_append.mp ht with htl | htr
    · rw [hlfdef, hlinesdef] at htl
      obtain ⟨i, hi, hgi, rfl⟩ := mem_flatMap_filterMap htl
      obtain ⟨s, hs, hs0, hsA, hbin⟩ := hline_wit i (List.mem_range.mp hi) hgi
      constructor
      · show f i ≠ 0
        rw [hfdef, ← hbin]
        unfold cbtBinToMs
        have : 1 ≤ K.binWidth / 2 := by omega
        omega
      · show f i ≤ K.buildTimeMax
        rw [hfdef, ← hbin]
        exact (hvalid s hs hs0 hsA).1
    · have := List.eq_of_mem_replicate htr
      subst this
      exact ⟨hAB0, hABmax⟩
  set cbt0 := circuit_build_times_init K E with hcbt0
  set shuffled : List ℕ :=
    cbtFisherYates r (min loaded.length 2147483646 - 1) loaded with hshdef
  have hsh_count : ∀ b, shuffled.count b = loaded.count b := by
    intro b
    rw [hshdef]
    exact cbtFisherYates_count_all r loaded
      (by rw [hloaded_len]; omega) b
  have hsh_len : shuffled.length = loaded.length := by
    rw [hshdef]
    exact cbtFisherYates_length r _ loaded
  have hsh_mem : ∀ t ∈ shuffled, t ≠ 0 ∧ t ≤ K.buildTimeMax := by
    intro t ht
    have : 0 < shuffled.count t := List.count_pos_iff.mpr ht
    rw [hsh_count t] at this
    exact hloaded_mem t (List.count_pos_iff.mp this)
  have hstore : circuit_build_times_shuffle_and_store_array K r cbt0 loaded =
      cbtAddAll K cbt0 shuffled := by
    have hmin : min loaded.length K.ncircuits = loaded.length := by
      rw [hloaded_len]
      exact Nat.min_eq_left htotN
    simp only [circuit_build_times_shuffle_and_store_array, ← hshdef, hmin]
    rw [← hsh_len, List.take_length]
  have hadd := cbtAddAll_fresh K cbt0 shuffled hN
    (by rw [hsh_len, hloaded_len]; exact htotN) rfl rfl rfl hsh_mem
  obtain ⟨hc1times, hc1total, _⟩ := hadd
  set cbt1 := cbtAddAll K cbt0 shuffled with hcbt1
  have hc1total' : cbt1.total = cbt.total := by
    rw [hc1total, hsh_len, hloaded_len]
  have hprefix : cbtPrefixNonzero cbt1.times = cbt.total := by
    rw [hc1times, cbtPrefixNonzero_append shuffled _
      (fun x hx => (hsh_mem x hx).1), hsh_len, hloaded_len]
  have hd' : ¬(E.disabled = true) := by simp [hd]
  have hres : circuit_build_times_parse_state K E r
      (circuit_build_times_update_state K cbt) =
      ((0 : Int), circuit_build_times_set_timeout K E cbt1) := by
    simp only [circuit_build_times_parse_state, if_neg hd']
    rw [show (circuit_build_times_update_state K cbt).BuildtimeHistogram =
      lines from rfl]
    rw [show (circuit_build_times_update_state K cbt).TotalBuildTimes =
      cbt.total from rfl]
    rw [show (circuit_build_times_update_state K cbt).CircuitBuildAbandonedCount
      = ab from rfl]
    rw [hlines_ok]
    simp only []
    rw [if_neg (by
      rw [hsumlines, hab]
      omega)]
    rw [show ([] ++ labelsFlat : List ℕ) = labelsFlat from List.nil_append _]
    rw [← hloadeddef, ← hcbt0, hstore]
    rw [if_neg (by
      push_neg
      refine ⟨by rw [hc1total', hprefix], ?_⟩
      rw [hc1total']
      exact htotN)]
    simp
  have hptimes : (circuit_build_times_parse_state K E r
      (circuit_build_times_update_state K cbt)).2.times = cbt1.times := by
    rw [hres]
    exact set_timeout_times_eq K E cbt1
  refine ⟨by rw [hres], ?_, ?_, ?_⟩
  · rw [hres]
    show (circuit_build_times_set_timeout K E cbt1).total = cbt.total
    rw [set_timeout_total_eq]
    exact hc1total'
  · rw [hptimes, hc1times, List.count_append, List.count_replicate,
      hsh_count, hloadeddef, List.count_append, hlf_noAB,
      List.count_replicate]
    simp [Ne.symm hAB0, hab]
  · intro t ht ht0 htAB
    rw [hptimes, hc1times] at ht
    rcases List.mem_append.mp ht with hts | htz
    · have hcnt : 0 < shuffled.count t := List.count_pos_iff.mpr hts
      rw [hsh_count] at hcnt
      have htl : t ∈ loaded := List.count_pos_iff.mp hcnt
      rw [hloadeddef] at htl
      rcases List.mem_append.mp htl with htlf | htab
      · rw [hlfdef, hlinesdef] at htlf
        obtain ⟨i, hi, hgi, rfl⟩ := mem_flatMap_filterMap htlf
        obtain ⟨s, hs, hs0, hsA, hbin⟩ :=
          hline_wit i (List.mem_range.mp hi) hgi
        have heq : f i = cbtBinToMs K (s / K.binWidth) := by
          rw [hbin]
        have hdm : (K.binWidth : ℤ) * ((s / K.binWidth : ℕ) : ℤ) +
            ((s % K.binWidth : ℕ) : ℤ) = (s : ℤ) := by
          exact_mod_cast Nat.div_add_mod s K.binWidth
        have hts' : (f i : ℤ) - (s : ℤ) =
            ((K.binWidth / 2 : ℕ) : ℤ) - ((s % K.binWidth : ℕ) : ℤ) := by
          rw [heq]
          unfold cbtBinToMs
          rw [Nat.cast_add, Nat.cast_mul]
          linarith [hdm]
        have hmlt : ((s % K.binWidth : ℕ) : ℤ) < (K.binWidth : ℤ) := by
          exact_mod_cast Nat.mod_lt s hW0
        have hw2 : 2 * ((K.binWidth / 2 : ℕ) : ℤ) +
            ((K.binWidth % 2 : ℕ) : ℤ) = (K.binWidth : ℤ) := by
          exact_mod_cast Nat.div_add_mod K.binWidth 2
        have hr2 : ((K.binWidth % 2 : ℕ) : ℤ) < 2 := by
          exact_mod_cast Nat.mod_lt K.binWidth (by omega : 0 < 2)
        refine ⟨s, hs, hs0, hsA, heq, ?_, ?_⟩
        · omega
        · omega
      · exact absurd (List.eq_of_mem_replicate htab) htAB
    · exact absurd (List.eq_of_mem_replicate htz) ht0

/-- C2: a circuit whose construction has exceeded the learned timeout is
reported `CIRC_EVENT_FAILED` with reason `TIMEOUT` (whence the expiry
collaborator, modelled from the spec, transitions it to CLOSING with reason
`TIMEOUT`) and is repurposed as measurement-only; and when that
measurement-only circuit later reaches the three-hop count, its actual
build time is still recorded into the build-time distribution (slot
`build_times_idx` receives the measured `timediff`). -/
theorem cbt_timeout_circ_still_measured (K : CbtConsts) (E : CbtEnv)
    (circ : OriginCirc) (cbt cbt' : CBT) (timediff1 timediff2 : ℤ)
    (openedLen1 : ℕ) (anyOpened2 : Bool)
    (hd : E.disabled = false)
    (h1 : cbt.timeoutMs < (timediff1 : ℝ))
    (hp : circ.purpose ≠ CIRCUIT_PURPOSE_C_MEASURE_TIMEOUT)
    (hlen1 : openedLen1 ≠ DEFAULT_ROUTE_LEN)
    (h2a : 0 ≤ timediff2)
    (h2b : (timediff2 : ℝ) ≤ 2 * cbt'.closeMs + 1000)
    (hlive : cbt'.liveNonliveTimeouts = 0)
    (hv0 : timediff2.toNat % 4294967296 ≠ 0)
    (hvM : timediff2.toNat % 4294967296 ≤ K.buildTimeMax)
    (hidx : cbt'.idx < cbt'.times.length) :
    (circuit_build_times_handle_completed_hop K E circ cbt true timediff1
        true openedLen1).1.purpose = CIRCUIT_PURPOSE_C_MEASURE_TIMEOUT ∧
    (circuit_build_times_handle_completed_hop K E circ cbt true timediff1
        true openedLen1).2.2 =
      [(CIRC_EVENT_FAILED, END_CIRC_REASON_TIMEOUT)] ∧
    expireReportedCirc
      (circuit_build_times_handle_completed_hop K E circ cbt true timediff1
        true openedLen1).2.2 = some END_CIRC_REASON_TIMEOUT ∧
    (circuit_build_times_handle_completed_hop K E
        (circuit_build_times_handle_completed_hop K E circ cbt true timediff1
          true openedLen1).1
        cbt' true timediff2 anyOpened2 DEFAULT_ROUTE_LEN).2.1.times.getD
      cbt'.idx 0 = timediff2.toNat % 4294967296 := by
  have hw : ¬¬True := not_not_intro trivial
  have hcall1 : circuit_build_times_handle_completed_hop K E circ cbt true
      timediff1 true openedLen1 =
      ({ circ with purpose := CIRCUIT_PURPOSE_C_MEASURE_TIMEOUT },
       (circuit_build_times_mark_circ_as_measurement_only K E circ cbt).2.1,
       [(CIRC_EVENT_FAILED, END_CIRC_REASON_TIMEOUT)]) := by
    simp only [circuit_build_times_handle_completed_hop]
    rw [if_neg (by simp [hd] : ¬(E.disabled = true)), if_neg hw,
      if_pos (⟨h1, trivial⟩ : cbt.timeoutMs < (timediff1 : ℝ) ∧ True),
      if_pos hp, if_neg hlen1]
    simp only [circuit_build_times_mark_circ_as_measurement_only]
  have hpurpose : (circuit_build_times_handle_completed_hop K E circ cbt true
      timediff1 true openedLen1).1.purpose =
      CIRCUIT_PURPOSE_C_MEASURE_TIMEOUT := by
    rw [hcall1]
  have hevs : (circuit_build_times_handle_completed_hop K E circ cbt true
      timediff1 true openedLen1).2.2 =
      [(CIRC_EVENT_FAILED, END_CIRC_REASON_TIMEOUT)] := by
    rw [hcall1]
  refine ⟨hpurpose, hevs, ?_, ?_⟩
  · rw [hevs]
    simp [expireReportedCirc]
  · have hvguard : ¬(timediff2.toNat % 4294967296 = 0 ∨
        K.buildTimeMax < timediff2.toNat % 4294967296) := by
      push_neg
      exact ⟨hv0, hvM⟩
    have hsane : ¬(timediff2 < 0 ∨
        2 * cbt'.closeMs + 1000 < (timediff2 : ℝ)) := by
      push_neg
      exact ⟨h2a, h2b⟩
    have hlive' : circuit_build_times_network_check_live cbt' = true := by
      simp [circuit_build_times_network_check_live, hlive]
    have hnp : ¬(CIRCUIT_PURPOSE_C_MEASURE_TIMEOUT ≠
        CIRCUIT_PURPOSE_C_MEASURE_TIMEOUT) := not_not_intro rfl
    rw [hcall1]
    simp only [circuit_build_times_handle_completed_hop]
    rw [if_neg (by simp [hd] : ¬(E.disabled = true)), if_neg hw]
    simp only [if_neg hnp, ite_self, if_pos rfl, if_neg hsane, hlive',
      if_pos rfl, if_true]
    rw [set_timeout_times_eq]
    simp only [circuit_build_times_add_time]
    rw [if_neg hvguard]
    simp [List.getD_eq_getElem?_getD, List.getElem?_set_self hidx]

/-- Constants used by the concrete witnesses: a window of 3 circuits, bin
width 10 ms, maximum build time 100 ms, abandoned sentinel 50. -/
def wK : CbtConsts :=
  { ncircuits := 3, binWidth := 10, buildTimeMax := 100, buildAbandoned := 50 }

/-- Concrete `circuit_build_times_t` state used by the witnesses. -/
noncomputable def wCbt : CBT :=
  { times := [0, 0, 0]
    idx := 0
    total := 0
    Xm := 0
    alpha := none
    timeoutMs := 60000
    closeMs := 60000
    haveComputed := false
    numSucceeded := 0
    numClosed := 0
    numTimeouts := 0
    liveTimeoutsAfterFirsthop := []
    liveNumRecent := 0
    liveAfterFirsthopIdx := 0
    liveNonliveTimeouts := 0 }

/-- Witness for C4 at four samples through a window of three. -/
theorem cbt_rolling_window_witness :
    0 < wK.ncircuits ∧
    (∀ t ∈ [5, 6, 7, 8], t ≠ 0 ∧ t ≤ wK.buildTimeMax) ∧
    ((cbtAddAll wK (circuit_build_times_reset wK wCbt) [5, 6, 7, 8]).times.length =
        wK.ncircuits ∧
      (cbtAddAll wK (circuit_build_times_reset wK wCbt) [5, 6, 7, 8]).total =
        min ([5, 6, 7, 8] : List ℕ).length wK.ncircuits ∧
      (cbtAddAll wK (circuit_build_times_reset wK wCbt) [5, 6, 7, 8]).total ≤
        wK.ncircuits ∧
      (cbtAddAll wK (circuit_build_times_reset wK wCbt) [5, 6, 7, 8]).idx =
        ([5, 6, 7, 8] : List ℕ).length % wK.ncircuits ∧
      (cbtAddAll wK (circuit_build_times_reset wK wCbt) [5, 6, 7, 8]).idx <
        wK.ncircuits ∧
      (∀ i, i < ([5, 6, 7, 8] : List ℕ).length →
        ([5, 6, 7, 8] : List ℕ).length ≤ i + wK.ncircuits →
        (cbtAddAll wK (circuit_build_times_reset wK wCbt) [5, 6, 7, 8]).times.getD
            (i % wK.ncircuits) 0 = ([5, 6, 7, 8] : List ℕ).getD i 0)) :=
  ⟨by decide, by decide, cbt_rolling_window wK (by decide) wCbt [5, 6, 7, 8] (by decide)⟩

/-- Environment used by the concrete witnesses: learning enabled, two
circuits needed before computing, 80% cutoff quantile, 95% close quantile,
1500 ms minimum and 60000 ms initial timeout, 2 Xm modes. -/
def wE : CbtEnv :=
  { disabled := false
    cbtmincircs := 2
    cbtquantile := 80
    cbtclosequantile := 95
    cbtmintimeout := 1500
    cbtinitialtimeout := 60000
    cbtnummodes := 2
    cbtmaxtimeouts := 3
    configCircuitBuildTimeout := 0
    cbtrecentcount := 4 }

/-- Concrete estimator state with one valid sample (25 ms) and one
abandoned entry (the sentinel 50), used by the round-trip witness. -/
noncomputable def wCbt3 : CBT :=
  { wCbt with times := [25, 50, 0], idx := 2, total := 2 }

/-- Witness for C3 at the two-entry state, with the constant-zero
randomness oracle standing in for `crypto_rand_int`. -/
theorem cbt_state_roundtrip_witness :
    wE.disabled = false ∧ 0 < wK.ncircuits ∧ wK.ncircuits ≤ 2147483646 ∧
    2 ≤ wK.binWidth ∧ wK.buildAbandoned ≠ 0 ∧
    wK.buildAbandoned ≤ wK.buildTimeMax ∧
    wCbt3.times.length = wK.ncircuits ∧
    wCbt3.total = wCbt3.times.countP (fun x => !(x == 0)) ∧
    (∀ x ∈ wCbt3.times, x ≠ 0 → x ≠ wK.buildAbandoned →
      cbtBinToMs wK (x / wK.binWidth) ≤ wK.buildTimeMax ∧
      cbtBinToMs wK (x / wK.binWidth) ≠ wK.buildAbandoned) ∧
    ((circuit_build_times_parse_state wK wE (fun _ => 0)
        (circuit_build_times_update_state wK wCbt3)).1 = 0 ∧
      (circuit_build_times_parse_state wK wE (fun _ => 0)
        (circuit_build_times_update_state wK wCbt3)).2.total = wCbt3.total ∧
      (circuit_build_times_parse_state wK wE (fun _ => 0)
        (circuit_build_times_update_state wK wCbt3)).2.times.count
        wK.buildAbandoned = wCbt3.times.count wK.buildAbandoned ∧
      ∀ t ∈ (circuit_build_times_parse_state wK wE (fun _ => 0)
          (circuit_build_times_update_state wK wCbt3)).2.times,
        t ≠ 0 → t ≠ wK.buildAbandoned →
        ∃ s ∈ wCbt3.times, s ≠ 0 ∧ s ≠ wK.buildAbandoned ∧
          t = cbtBinToMs wK (s / wK.binWidth) ∧
          (t : ℤ) - (s : ℤ) ≤ (wK.binWidth / 2 : ℕ) ∧
          (s : ℤ) - (t : ℤ) ≤ (wK.binWidth / 2 : ℕ)) :=
  ⟨by decide, by decide, by decide, by decide, by decide, by decide,
   by decide, by decide, by decide,
   cbt_state_roundtrip wK wE (fun _ => 0) wCbt3 (by decide) (by decide)
     (by decide) (by decide) (by decide) (by decide) (by decide) (by decide)
     (by decide)⟩

/-- Concrete origin circuit used by the witnesses: general purpose (0),
timeout not relaxed, first hop open. -/
def wCirc : OriginCirc :=
  { purpose := 0, relaxedTimeout := false, firstHopOpen := true }

/-- Witness for C2: a circuit at 200000 ms against a 60000 ms timeout,
whose 60 ms completion at three hops is still recorded. -/
theorem cbt_timeout_circ_still_measured_witness :
    wE.disabled = false ∧
    wCbt.timeoutMs < ((200000 : ℤ) : ℝ) ∧
    wCirc.purpose ≠ CIRCUIT_PURPOSE_C_MEASURE_TIMEOUT ∧
    (2 : ℕ) ≠ DEFAULT_ROUTE_LEN ∧
    (0 : ℤ) ≤ 60 ∧
    ((60 : ℤ) : ℝ) ≤ 2 * wCbt.closeMs + 1000 ∧
    wCbt.liveNonliveTimeouts = 0 ∧
    (60 : ℤ).toNat % 4294967296 ≠ 0 ∧
    (60 : ℤ).toNat % 4294967296 ≤ wK.buildTimeMax ∧
    wCbt.idx < wCbt.times.length ∧
    ((circuit_build_times_handle_completed_hop wK wE wCirc wCbt true 200000
        true 2).1.purpose = CIRCUIT_PURPOSE_C_MEASURE_TIMEOUT ∧
      (circuit_build_times_handle_completed_hop wK wE wCirc wCbt true 200000
        true 2).2.2 = [(CIRC_EVENT_FAILED, END_CIRC_REASON_TIMEOUT)] ∧
      expireReportedCirc
        (circuit_build_times_handle_completed_hop wK wE wCirc wCbt true 200000
          true 2).2.2 = some END_CIRC_REASON_TIMEOUT ∧
      (circuit_build_times_handle_completed_hop wK wE
          (circuit_build_times_handle_completed_hop wK wE wCirc wCbt true
            200000 true 2).1
          wCbt true 60 true DEFAULT_ROUTE_LEN).2.1.times.getD
        wCbt.idx 0 = (60 : ℤ).toNat % 4294967296) :=
  ⟨by decide, by norm_num [wCbt], by decide, by decide, by norm_num,
   by norm_num [wCbt], by decide, by decide, by decide, by decide,
   cbt_timeout_circ_still_measured wK wE wCirc wCbt wCbt 200000 60 2 true
     (by decide) (by norm_num [wCbt]) (by decide) (by decide) (by norm_num)
     (by norm_num [wCbt]) (by decide) (by decide) (by decide) (by decide)⟩

/-- Concrete estimator state with two recorded build times (20 ms and
30 ms), enough for the witness environment's `cbtmincircs = 2`. -/
noncomputable def wCbt2 : CBT :=
  { wCbt with times := [20, 30, 0], idx := 2, total := 2 }

/-- Witness for C8 at the two-sample state. -/
theorem cbt_set_timeout_invariant_witness :
    wE.disabled = false ∧ wE.cbtquantile ≤ 99 ∧ wE.cbtclosequantile ≤ 99 ∧
    circuit_build_times_enough_to_compute wE wCbt2 = true ∧
    circuit_build_times_get_xm wK wE wCbt2 ≠ 0 ∧
    ((circuit_build_times_set_timeout_worker wK wE wCbt2).1 = true ∧
      (circuit_build_times_min_timeout wE : ℝ) ≤
        (circuit_build_times_set_timeout wK wE wCbt2).timeoutMs ∧
      (circuit_build_times_set_timeout wK wE wCbt2).timeoutMs ≤
        (circuit_build_times_set_timeout wK wE wCbt2).closeMs) :=
  ⟨by decide, by decide, by decide, by decide, by decide,
   cbt_set_timeout_invariant wK wE wCbt2 (by decide) (by decide) (by decide)
     (by decide) (by decide)⟩

/-- C5: before enough build times are recorded, the seed value rules:
`circuit_build_times_init` sets both `timeout_ms` and `close_ms` to the
configured-or-default initial timeout, and `circuit_build_times_set_timeout`
leaves the whole estimator state (in particular those two fields)
unchanged. -/
theorem cbt_initial_seed (K : CbtConsts) (E : CbtEnv) (cbt : CBT)
    (h : cbt.total < E.cbtmincircs) :
    (circuit_build_times_init K E).timeoutMs =
      (circuit_build_times_get_initial_timeout E : ℝ) ∧
    (circuit_build_times_init K E).closeMs =
      (circuit_build_times_get_initial_timeout E : ℝ) ∧
    circuit_build_times_set_timeout K E cbt = cbt := by
  refine ⟨rfl, rfl, ?_⟩
  unfold circuit_build_times_set_timeout
  by_cases hd : E.disabled
  · simp [hd]
  · have hen : circuit_build_times_enough_to_compute E cbt = false := by
      simp only [circuit_build_times_enough_to_compute, decide_eq_false_iff_not]
      omega
    simp [hd, circuit_build_times_set_timeout_worker, hen]

/-- Witness for C5 at the concrete environment and the fresh state. -/
theorem cbt_initial_seed_witness :
    wCbt.total < wE.cbtmincircs ∧
    ((circuit_build_times_init wK wE).timeoutMs =
        (circuit_build_times_get_initial_timeout wE : ℝ) ∧
      (circuit_build_times_init wK wE).closeMs =
        (circuit_build_times_get_initial_timeout wE : ℝ) ∧
      circuit_build_times_set_timeout wK wE wCbt = wCbt) :=
  ⟨by decide, cbt_initial_seed wK wE wCbt (by decide)⟩

/-- Witness for C9: a rejected sample (0) and an accepted sample (42). -/
theorem circuit_build_times_add_time_range_witness :
    circuit_build_times_add_time wK wCbt 0 = (-1, wCbt) ∧
    circuit_build_times_add_time wK wCbt 42 =
      (0, { wCbt with
            times := wCbt.times.set wCbt.idx 42
            idx := (wCbt.idx + 1) % wK.ncircuits
            total := if wCbt.total < wK.ncircuits then wCbt.total + 1
                     else wCbt.total }) :=
  ⟨(circuit_build_times_add_time_range wK wCbt 0).1 (Or.inl rfl),
   (circuit_build_times_add_time_range wK wCbt 42).2 (by decide) (by decide)⟩

/-- Smallest chunk allocation of `memarea.c` (`CHUNK_SIZE`). -/
def CHUNK_SIZE : ℕ := 4096

/-- Bytes devoted to the write-guard sentinel (`SENTINEL_LEN =
sizeof(uint32_t)`). -/
def SENTINEL_LEN : ℕ := 4

/-- Platform parameters of `memarea.c`: `MEMAREA_ALIGN = SIZEOF_VOID_P`
(4 or 8) and `CHUNK_HEADER_SIZE = offsetof(memarea_chunk_t, U_MEM)`.  Both
depend on the build, so they are parameters of the model. -/
structure MemPlat where
  align : ℕ
  hdr : ℕ
  deriving DecidableEq

/-- Embeds `realign_pointer`: `(x + MEMAREA_ALIGN_MASK) & ~MEMAREA_ALIGN_MASK`,
written as rounding up to the next multiple, which is what the bit mask
computes for the power-of-two aligns (4, 8) the code supports. -/
def realign_pointer (P : MemPlat) (x : ℕ) : ℕ :=
  (x + (P.align - 1)) / P.align * P.align

/-- One `memarea_chunk_t`.  `id` identifies the `tor_malloc` allocation the
chunk lives in (so reuse of a chunk is observable); `nextMem` is the
`next_mem` pointer as an offset from the `mem` member. -/
structure MemChunk where
  id : ℕ
  memSize : ℕ
  nextMem : ℕ
  deriving DecidableEq

/-- A `memarea_t`: the chunk stack (`first` at the head) plus the ghost
counter stamping ids onto fresh `tor_malloc` allocations. -/
structure Memarea where
  chunks : List MemChunk
  nextId : ℕ
  deriving DecidableEq

/-- Embeds `alloc_chunk`: round the request up to `CHUNK_SIZE`, add
`SENTINEL_LEN`, and keep `mem_size = chunk_size - CHUNK_HEADER_SIZE -
SENTINEL_LEN`; `next_mem` starts at the `mem` member (offset 0).  The
`tor_malloc` call is modelled by stamping the ghost id `i`. -/
def alloc_chunk (i : ℕ) (P : MemPlat) (sz : ℕ) : MemChunk :=
  { id := i
    memSize := max sz CHUNK_SIZE + SENTINEL_LEN - P.hdr - SENTINEL_LEN
    nextMem := 0 }

/-- Embeds `memarea_new`: one fresh `CHUNK_SIZE` chunk. -/
def memarea_new (P : MemPlat) : Memarea :=
  { chunks := [alloc_chunk 0 P CHUNK_SIZE], nextId := 1 }

/-- Embeds `memarea_clear`: free every chunk except the first and reset the
first chunk's `next_mem` to the start of its memory. -/
def memarea_clear (area : Memarea) : Memarea :=
  match area.chunks with
  | [] => area
  | c :: _ => { area with chunks := [{ c with nextMem := 0 }] }

/-- Embeds `memarea_alloc`.  Returns the new arena together with the
returned pointer as a (chunk id, offset into that chunk's `mem`) pair.  A
zero byte request becomes one byte; when the request does not fit in the
head chunk, an over-`CHUNK_SIZE` request gets a dedicated chunk placed
second in the list, and an ordinary one a fresh head chunk.  The empty
chunk list cannot occur (`tor_assert(chunk)`); it returns a dummy. -/
def memarea_alloc (P : MemPlat) (area : Memarea) (sz0 : ℕ) :
    Memarea × (ℕ × ℕ) :=
  match area.chunks with
  | [] => (area, (0, 0))
  | c :: rest =>
    let sz := max sz0 1
    if c.memSize - c.nextMem < sz then
      if CHUNK_SIZE ≤ sz + P.hdr then
        let nc := alloc_chunk area.nextId P (sz + P.hdr)
        ({ chunks := c :: { nc with nextMem := realign_pointer P (0 + sz) } :: rest
           nextId := area.nextId + 1 },
         (nc.id, 0))
      else
        let nc := alloc_chunk area.nextId P CHUNK_SIZE
        ({ chunks :=
             { nc with nextMem := realign_pointer P (0 + sz) } :: c :: rest
           nextId := area.nextId + 1 },
         (nc.id, 0))
    else
      ({ area with chunks :=
           { c with nextMem := realign_pointer P (c.nextMem + sz) } :: rest },
       (c.id, c.nextMem))

/-- Address of a returned pointer, given the base address that the modelled
`tor_malloc` gave each chunk's `mem` member. -/
def memPtr (addrOf : ℕ → ℕ) (q : ℕ × ℕ) : ℕ :=
  addrOf q.1 + q.2

/-- Embeds `memarea_owns_ptr`: true iff the pointer lies in
`[chunk->U_MEM, chunk->next_mem)` for some chunk of the area. -/
def memarea_owns_ptr (addrOf : ℕ → ℕ) (area : Memarea) (p : ℕ) : Bool :=
  area.chunks.any
    (fun c => decide (addrOf c.id ≤ p ∧ p < addrOf c.id + c.nextMem))

theorem realign_dvd (P : MemPlat) (x : ℕ) : P.align ∣ realign_pointer P x :=
  Dvd.intro_left _ rfl

theorem le_realign (P : MemPlat) (hA : 0 < P.align) (x : ℕ) :
    x ≤ realign_pointer P x := by
  unfold realign_pointer
  have h1 : x + (P.align - 1) < (x + (P.align - 1)) / P.align * P.align
      + P.align := Nat.lt_div_mul_add hA
  omega

/-- C7: `memarea_clear` keeps exactly the first chunk with its allocation
pointer reset to the start of its memory (invalidating and freeing the
rest), and a following `memarea_alloc` whose (zero-promoted) size fits is
served from that retained chunk: same malloc identity, offset 0, ghost
allocation counter unchanged, no chunk added. -/
theorem memarea_clear_reuse (P : MemPlat) (area : Memarea) (c : MemChunk)
    (rest : List MemChunk) (sz : ℕ)
    (hch : area.chunks = c :: rest) (hfit : max sz 1 ≤ c.memSize) :
    memarea_clear area = { area with chunks := [{ c with nextMem := 0 }] } ∧
    (memarea_alloc P (memarea_clear area) sz).2 = (c.id, 0) ∧
    (memarea_alloc P (memarea_clear area) sz).1.nextId = area.nextId ∧
    (memarea_alloc P (memarea_clear area) sz).1.chunks =
      [{ c with nextMem := realign_pointer P (0 + max sz 1) }] := by
  have hclear : memarea_clear area =
      { area with chunks := [{ c with nextMem := 0 }] } := by
    unfold memarea_clear
    rw [hch]
  have hguard : ¬(({ c with nextMem := 0 } : MemChunk).memSize - 0 < max sz 1) := by
    simp only [Nat.sub_zero, not_lt]
    exact hfit
  have halloc : memarea_alloc P (memarea_clear area) sz =
      ({ chunks := [{ c with nextMem := realign_pointer P (0 + max sz 1) }]
         nextId := area.nextId },
       (c.id, 0)) := by
    rw [hclear]
    unfold memarea_alloc
    simp only [if_neg hguard]
  exact ⟨hclear, by rw [halloc], by rw [halloc], by rw [halloc]⟩

/-- Witness instantiation pieces for the memarea claims: a 64-bit platform
(8-byte alignment, 24-byte chunk header), a two-chunk arena, and chunk
bases at multiples of 8. -/
def wP : MemPlat := { align := 8, hdr := 24 }

/-- Concrete arena with two chunks used by the memarea witnesses. -/
def wArea : Memarea :=
  { chunks := [{ id := 0, memSize := 4076, nextMem := 16 },
               { id := 1, memSize := 4076, nextMem := 4072 }]
    nextId := 2 }

/-- Witness for C7: clearing the two-chunk arena and allocating 100 bytes
reuses chunk 0. -/
theorem memarea_clear_reuse_witness :
    wArea.chunks = { id := 0, memSize := 4076, nextMem := 16 } ::
      [{ id := 1, memSize := 4076, nextMem := 4072 }] ∧
    max 100 1 ≤ (4076 : ℕ) ∧
    (memarea_clear wArea =
      { wArea with
        chunks := [{ id := 0, memSize := 4076, nextMem := 0 }] } ∧
    (memarea_alloc wP (memarea_clear wArea) 100).2 = (0, 0) ∧
    (memarea_alloc wP (memarea_clear wArea) 100).1.nextId = wArea.nextId ∧
    (memarea_alloc wP (memarea_clear wArea) 100).1.chunks =
      [{ id := 0, memSize := 4076,
         nextMem := realign_pointer wP (0 + max 100 1) }]) :=
  ⟨by decide, by decide,
   memarea_clear_reuse wP wArea
     { id := 0, memSize := 4076, nextMem := 16 }
     [{ id := 1, memSize := 4076, nextMem := 4072 }] 100
     (by decide) (by decide)⟩

theorem owns_of_mem (addrOf : ℕ → ℕ) (area : Memarea) (c : MemChunk)
    (hc : c ∈ area.chunks) (p : ℕ) (h1 : addrOf c.id ≤ p)
    (h2 : p < addrOf c.id + c.nextMem) :
    memarea_owns_ptr addrOf area p = true := by
  unfold memarea_owns_ptr
  rw [List.any_eq_true]
  exact ⟨c, hc, decide_eq_true ⟨h1, h2⟩⟩

/-- C10: on any arena whose chunk offsets are `MEMAREA_ALIGN`-aligned (the
invariant `alloc_chunk` asserts with `realign_pointer(next_mem) ==
next_mem`) and whose chunk bases are aligned (guaranteed by the `mem`
member's alignment attribute), every pointer `memarea_alloc` returns is
`MEMAREA_ALIGN`-aligned and lies inside a chunk of the updated arena, so
`memarea_owns_ptr` answers true; the alignment invariant is preserved, and
a zero-byte request behaves exactly like a one-byte request. -/
theorem memarea_alloc_aligned_owned (P : MemPlat) (addrOf : ℕ → ℕ)
    (area : Memarea) (sz0 : ℕ) (hA : 0 < P.align)
    (haddr : ∀ i, P.align ∣ addrOf i)
    (hinv : ∀ ch ∈ area.chunks, P.align ∣ ch.nextMem)
    (hne : area.chunks ≠ []) :
    P.align ∣ memPtr addrOf (memarea_alloc P area sz0).2 ∧
    memarea_owns_ptr addrOf (memarea_alloc P area sz0).1
      (memPtr addrOf (memarea_alloc P area sz0).2) = true ∧
    (∀ ch ∈ (memarea_alloc P area sz0).1.chunks, P.align ∣ ch.nextMem) ∧
    memarea_alloc P area 0 = memarea_alloc P area 1 := by
  obtain ⟨c, rest, hch⟩ : ∃ c rest, area.chunks = c :: rest := by
    cases hc : area.chunks with
    | nil => exact absurd hc hne
    | cons c rest => exact ⟨c, rest, rfl⟩
  have hzero : memarea_alloc P area 0 = memarea_alloc P area 1 := by
    simp only [memarea_alloc, hch, show (max 0 1 : ℕ) = max 1 1 from rfl]
  have hsz1 : 1 ≤ max sz0 1 := le_max_right _ _
  have hcmem : c ∈ area.chunks := by
    rw [hch]; exact List.mem_cons_self c rest
  by_cases hfit : c.memSize - c.nextMem < max sz0 1
  · by_cases hbig : CHUNK_SIZE ≤ max sz0 1 + P.hdr
    · have hres : memarea_alloc P area sz0 =
          ({ chunks := c ::
               { alloc_chunk area.nextId P (max sz0 1 + P.hdr) with
                 nextMem := realign_pointer P (0 + max sz0 1) } :: rest
             nextId := area.nextId + 1 },
           ((alloc_chunk area.nextId P (max sz0 1 + P.hdr)).id, 0)) := by
        simp only [memarea_alloc, hch]
        rw [if_pos hfit, if_pos hbig]
      refine ⟨?_, ?_, ?_, hzero⟩
      · rw [hres]
        simpa [memPtr, alloc_chunk] using haddr area.nextId
      · rw [hres]
        refine owns_of_mem addrOf _
          { alloc_chunk area.nextId P (max sz0 1 + P.hdr) with
            nextMem := realign_pointer P (0 + max sz0 1) }
          (by simp) _ ?_ ?_
        · simp [memPtr]
        · have h := le_realign P hA (0 + max sz0 1)
          simp only [memPtr]
          show addrOf _ + 0 < addrOf _ + realign_pointer P (0 + max sz0 1)
          omega
      · rw [hres]
        intro ch hmem
        simp only [List.mem_cons] at hmem
        rcases hmem with h | h | h
        · exact h ▸ hinv c hcmem
        · subst h; exact realign_dvd P (0 + max sz0 1)
        · exact hinv ch (by rw [hch]; exact List.mem_cons_of_mem c h)
    · have hres : memarea_alloc P area sz0 =
          ({ chunks :=
               { alloc_chunk area.nextId P CHUNK_SIZE with
                 nextMem := realign_pointer P (0 + max sz0 1) } :: c :: rest
             nextId := area.nextId + 1 },
           ((alloc_chunk area.nextId P CHUNK_SIZE).id, 0)) := by
        simp only [memarea_alloc, hch]
        rw [if_pos hfit, if_neg hbig]
      refine ⟨?_, ?_, ?_, hzero⟩
      · rw [hres]
        simpa [memPtr, alloc_chunk] using haddr area.nextId
      · rw [hres]
        refine owns_of_mem addrOf _
          { alloc_chunk area.nextId P CHUNK_SIZE with
            nextMem := realign_pointer P (0 + max sz0 1) }
          (by simp) _ ?_ ?_
        · simp [memPtr]
        · have h := le_realign P hA (0 + max sz0 1)
          simp only [memPtr]
          show addrOf _ + 0 < addrOf _ + realign_pointer P (0 + max sz0 1)
          omega
      · rw [hres]
        intro ch hmem
        simp only [List.mem_cons] at hmem
        rcases hmem with h | h | h
        · subst h; exact realign_dvd P (0 + max sz0 1)
        · exact h ▸ hinv c hcmem
        · exact hinv ch (by rw [hch]; exact List.mem_cons_of_mem c h)
  · have hres : memarea_alloc P area sz0 =
        ({ area with chunks :=
             { c with nextMem := realign_pointer P (c.nextMem + max sz0 1) }
               :: rest },
         (c.id, c.nextMem)) := by
      simp only [memarea_alloc, hch]
      rw [if_neg hfit]
    refine ⟨?_, ?_, ?_, hzero⟩
    · rw [hres]
      show P.align ∣ addrOf c.id + c.nextMem
      exact dvd_add (haddr c.id) (hinv c hcmem)
    · rw [hres]
      refine owns_of_mem addrOf _
        { c with nextMem := realign_pointer P (c.nextMem + max sz0 1) }
        (by simp) _ ?_ ?_
      · simp [memPtr]
      · have h := le_realign P hA (c.nextMem + max sz0 1)
        simp only [memPtr]
        show addrOf c.id + c.nextMem <
          addrOf c.id + realign_pointer P (c.nextMem + max sz0 1)
        omega
    · rw [hres]
      intro ch hmem
      simp only [List.mem_cons] at hmem
      rcases hmem with h | h
      · subst h; exact realign_dvd P (c.nextMem + max sz0 1)
      · exact hinv ch (by rw [hch]; exact List.mem_cons_of_mem c h)

/-- Witness for C10: allocating 100 bytes in the concrete two-chunk arena,
with chunk bases placed at multiples of the 8-byte alignment, yields an
aligned pointer owned by the updated arena; the zero-size call equals the
one-byte call. -/
theorem memarea_alloc_aligned_owned_witness :
    (0 < wP.align ∧ (∀ i, wP.align ∣ 8 * i) ∧
     (∀ ch ∈ wArea.chunks, wP.align ∣ ch.nextMem) ∧ wArea.chunks ≠ []) ∧
    (wP.align ∣ memPtr (fun i => 8 * i) (memarea_alloc wP wArea 100).2 ∧
     memarea_owns_ptr (fun i => 8 * i) (memarea_alloc wP wArea 100).1
       (memPtr (fun i => 8 * i) (memarea_alloc wP wArea 100).2) = true ∧
     (∀ ch ∈ (memarea_alloc wP wArea 100).1.chunks, wP.align ∣ ch.nextMem) ∧
     memarea_alloc wP wArea 0 = memarea_alloc wP wArea 1) :=
  ⟨⟨by decide, fun i => ⟨i, rfl⟩, by decide, by decide⟩,
   memarea_alloc_aligned_owned wP (fun i => 8 * i) wArea 100 (by decide)
     (fun i => ⟨i, rfl⟩) (by decide) (by decide)⟩

/-- Modelled from the spec: command byte value of VERSIONS (the deployed
wire value; the spec names the command and classes it variable-width). -/
def CELL_VERSIONS : ℕ := 7

/-- Modelled from the spec: command byte value of NETINFO (listed as
variable-width by the spec's data model). -/
def CELL_NETINFO : ℕ := 8

/-- Modelled from the spec: command byte value of CERTS. -/
def CELL_CERTS : ℕ := 129

/-- Modelled from the spec: command byte value of AUTH_CHALLENGE. -/
def CELL_AUTH_CHALLENGE : ℕ := 130

/-- Modelled from the spec: command byte value of AUTHENTICATE. -/
def CELL_AUTHENTICATE : ℕ := 131

/-- Modelled from the spec: the variable-width command set (VERSIONS,
NETINFO, CERTS, AUTH_CHALLENGE, AUTHENTICATE); every other command is
fixed-width. -/
def isVarCmd (cmd : ℕ) : Bool :=
  cmd = CELL_VERSIONS ∨ cmd = CELL_NETINFO ∨ cmd = CELL_CERTS ∨
    cmd = CELL_AUTH_CHALLENGE ∨ cmd = CELL_AUTHENTICATE

/-- Modelled from the spec: the codec-relevant part of a channel's state —
whether the VERSIONS negotiation has completed and the negotiated link
protocol version (meaningful once negotiated, always at least 3). -/
structure ChannelState where
  negotiated : Bool
  linkVer : ℕ
  deriving DecidableEq

/-- Modelled from the spec: circuit-id width in bytes.  Before VERSIONS
negotiation completes only the legacy 2-byte form is used (VERSIONS itself
always uses it); afterwards v4+ channels use 4-byte ids and v3 channels
2-byte ids. -/
def idWidth (st : ChannelState) : ℕ :=
  if st.negotiated then (if 4 ≤ st.linkVer then 4 else 2) else 2

/-- Modelled from the spec: a cell — `circ_id`, `command`, `payload`, all
as numbers and byte lists. -/
structure Cell where
  circId : ℕ
  command : ℕ
  payload : List ℕ
  deriving DecidableEq

/-- Big-endian byte encoding of `x` on `n` bytes (most significant
first). -/
def beBytes : ℕ → ℕ → List ℕ
  | 0, _ => []
  | n + 1, x => beBytes n (x / 256) ++ [x % 256]

/-- Value of a big-endian byte string. -/
def beVal (l : List ℕ) : ℕ :=
  l.foldl (fun a b => a * 256 + b) 0

/-- Modelled from the spec: `encode(cell, channel_state, out_buf)` —
circuit id on `idWidth` bytes, one command byte, then for variable-width
commands a 2-byte big-endian length prefix followed by the payload, and
for fixed-width commands the 509-byte payload. -/
def encode (st : ChannelState) (c : Cell) : List ℕ :=
  beBytes (idWidth st) c.circId ++ [c.command] ++
    (if isVarCmd c.command then beBytes 2 c.payload.length ++ c.payload
     else c.payload)

/-- Modelled from the spec: `decode_next(channel_state, buf)` — read the
circuit id and command, reject any non-VERSIONS command before negotiation
completes, then read either a length-prefixed variable payload or the
509-byte fixed payload; `none` stands for both "need more bytes" and a
malformed cell.  Returns the decoded cell and the unconsumed remainder of
the buffer. -/
def decode_next (st : ChannelState) (buf : List ℕ) :
    Option (Cell × List ℕ) :=
  if idWidth st + 1 ≤ buf.length then
    if st.negotiated = false ∧ buf.getD (idWidth st) 0 ≠ CELL_VERSIONS then
      none
    else if isVarCmd (buf.getD (idWidth st) 0) then
      if 2 ≤ (buf.drop (idWidth st + 1)).length then
        if beVal ((buf.drop (idWidth st + 1)).take 2)
            ≤ ((buf.drop (idWidth st + 1)).drop 2).length then
          some ({ circId := beVal (buf.take (idWidth st))
                  command := buf.getD (idWidth st) 0
                  payload := ((buf.drop (idWidth st + 1)).drop 2).take
                    (beVal ((buf.drop (idWidth st + 1)).take 2)) },
            ((buf.drop (idWidth st + 1)).drop 2).drop
              (beVal ((buf.drop (idWidth st + 1)).take 2)))
        else none
      else none
    else
      if 509 ≤ (buf.drop (idWidth st + 1)).length then
        some ({ circId := beVal (buf.take (idWidth st))
                command := buf.getD (idWidth st) 0
                payload := (buf.drop (idWidth st + 1)).take 509 },
          (buf.drop (idWidth st + 1)).drop 509)
      else none
  else none

/-- Modelled from the spec: a well-formed cell for a given channel state —
byte-sized command and payload entries, circuit id fitting its width, link
version at least 3, a variable payload within the 16-bit length prefix, a
fixed payload of exactly 509 bytes, only VERSIONS before negotiation, and
VERSIONS only before negotiation (it alone keeps the legacy form). -/
def cellWellFormed (st : ChannelState) (c : Cell) : Prop :=
  c.command < 256 ∧ c.circId < 256 ^ idWidth st ∧
  (∀ b ∈ c.payload, b < 256) ∧ 3 ≤ st.linkVer ∧
  (isVarCmd c.command = true → c.payload.length ≤ 65535) ∧
  (isVarCmd c.command = false → c.payload.length = 509) ∧
  (st.negotiated = false → c.command = CELL_VERSIONS) ∧
  (c.command = CELL_VERSIONS → st.negotiated = false)

instance (st : ChannelState) (c : Cell) : Decidable (cellWellFormed st c) := by
  unfold cellWellFormed
  infer_instance

theorem beBytes_length (n x : ℕ) : (beBytes n x).length = n := by
  induction n generalizing x with
  | zero => rfl
  | succ n ih => simp [beBytes, ih]

theorem beVal_beBytes (n x : ℕ) : beVal (beBytes n x) = x % 256 ^ n := by
  induction n generalizing x with
  | zero => simp [beBytes, beVal, Nat.mod_one]
  | succ n ih =>
    have h1 : beVal (beBytes (n + 1) x)
        = beVal (beBytes n (x / 256)) * 256 + x % 256 := by
      simp [beBytes, beVal, List.foldl_append]
    rw [h1, ih]
    have h2 : (256 : ℕ) ^ (n + 1) = 256 * 256 ^ n := by ring
    rw [h2, Nat.mod_mul]
    omega

theorem decode_parse (st : ChannelState) (x cmd : ℕ) (t : List ℕ)
    (hg : ¬(st.negotiated = false ∧ cmd ≠ CELL_VERSIONS)) :
    decode_next st (beBytes (idWidth st) x ++ cmd :: t) =
      (if isVarCmd cmd then
        (if 2 ≤ t.length then
          (if beVal (t.take 2) ≤ (t.drop 2).length then
            some ({ circId := x % 256 ^ idWidth st, command := cmd
                    payload := (t.drop 2).take (beVal (t.take 2)) },
              (t.drop 2).drop (beVal (t.take 2)))
           else none)
         else none)
       else
        (if 509 ≤ t.length then
          some ({ circId := x % 256 ^ idWidth st, command := cmd
                  payload := t.take 509 }, t.drop 509)
         else none)) := by
  have hlen : (beBytes (idWidth st) x).length = idWidth st :=
    beBytes_length _ _
  have h1 : idWidth st + 1 ≤ (beBytes (idWidth st) x ++ cmd :: t).length := by
    simp [hlen]
  have htake : (beBytes (idWidth st) x ++ cmd :: t).take (idWidth st)
      = beBytes (idWidth st) x := List.take_left' hlen
  have hget : (beBytes (idWidth st) x ++ cmd :: t).getD (idWidth st) 0
      = cmd := by
    rw [List.getD_eq_getElem?_getD,
      List.getElem?_append_right (le_of_eq hlen)]
    simp [hlen]
  have hdrop : (beBytes (idWidth st) x ++ cmd :: t).drop (idWidth st + 1)
      = t := by
    have h2 : beBytes (idWidth st) x ++ cmd :: t
        = (beBytes (idWidth st) x ++ [cmd]) ++ t := by simp
    rw [h2]
    exact List.drop_left' (by simp [hlen])
  simp only [decode_next]
  rw [htake, hget, hdrop, if_pos h1, if_neg hg, beVal_beBytes]

/-- C6: encoding a well-formed cell under a channel state and decoding the
resulting bytes under the same channel state yields the original cell
byte-for-byte, with the remainder of the buffer untouched. -/
theorem cell_codec_roundtrip (st : ChannelState) (c : Cell) (rest : List ℕ)
    (hwf : cellWellFormed st c) :
    decode_next st (encode st c ++ rest) = some (c, rest) := by
  obtain ⟨hcmd, hcid, hpl, hver, hvlen, hflen, hneg1, hneg2⟩ := hwf
  have hg : ¬(st.negotiated = false ∧ c.command ≠ CELL_VERSIONS) := by
    intro hand
    exact hand.2 (hneg1 hand.1)
  by_cases hvar : isVarCmd c.command = true
  · have henc : encode st c ++ rest =
        beBytes (idWidth st) c.circId ++ c.command ::
          (beBytes 2 c.payload.length ++ (c.payload ++ rest)) := by
      simp [encode, hvar, List.append_assoc]
    rw [henc, decode_parse st c.circId c.command _ hg, if_pos hvar]
    have h2len : 2 ≤ (beBytes 2 c.payload.length
        ++ (c.payload ++ rest)).length := by
      simp [beBytes_length]
    have httake : (beBytes 2 c.payload.length
        ++ (c.payload ++ rest)).take 2 = beBytes 2 c.payload.length :=
      List.take_left' (beBytes_length 2 _)
    have htdrop : (beBytes 2 c.payload.length
        ++ (c.payload ++ rest)).drop 2 = c.payload ++ rest :=
      List.drop_left' (beBytes_length 2 _)
    rw [if_pos h2len, httake, htdrop, beVal_beBytes]
    have h65536 : (256 : ℕ) ^ 2 = 65536 := by norm_num
    have hvL : c.payload.length ≤ 65535 := hvlen hvar
    have hL : c.payload.length % 256 ^ 2 = c.payload.length :=
      Nat.mod_eq_of_lt (by rw [h65536]; omega)
    rw [hL]
    have hple : c.payload.length ≤ (c.payload ++ rest).length := by
      simp
    rw [if_pos hple, List.take_left' rfl, List.drop_left' rfl,
      Nat.mod_eq_of_lt hcid]
  · have hvarf : isVarCmd c.command = false := by
      simpa using hvar
    have hpl509 : c.payload.length = 509 := hflen hvarf
    have henc : encode st c ++ rest =
        beBytes (idWidth st) c.circId ++ c.command ::
          (c.payload ++ rest) := by
      simp [encode, hvarf, List.append_assoc]
    rw [henc, decode_parse st c.circId c.command _ hg, if_neg hvar]
    have h509 : 509 ≤ (c.payload ++ rest).length := by
      simp [hpl509]
    have ht : (c.payload ++ rest).take 509 = c.payload := by
      rw [← hpl509]
      exact List.take_left' rfl
    have hd : (c.payload ++ rest).drop 509 = rest := by
      rw [← hpl509]
      exact List.drop_left' rfl
    rw [if_pos h509, ht, hd, Nat.mod_eq_of_lt hcid]

/-- Concrete channel state for the codec witness: negotiation finished at
link version 4 (4-byte circuit ids). -/
def wSt : ChannelState := { negotiated := true, linkVer := 4 }

/-- Concrete fixed-width cell for the codec witness: a RELAY cell
(command 3) with a full 509-byte payload. -/
def wCell : Cell :=
  { circId := 3250700000, command := 3, payload := List.replicate 509 65 }

/-- Witness for C6: the concrete RELAY cell is well formed for the v4
channel state and encode-then-decode returns it byte-for-byte with the
trailing bytes preserved. -/
theorem cell_codec_roundtrip_witness :
    cellWellFormed wSt wCell ∧
    decode_next wSt (encode wSt wCell ++ [9, 9]) = some (wCell, [9, 9]) :=
  ⟨by decide, cell_codec_roundtrip wSt wCell [9, 9] (by decide)⟩

end Nuon
